import Mathlib

/-!
Verification of the vectorized-execution core (columns, hash table, aggregate
adapter) of this repository against its specification.

The definitions below are shallow embeddings of the C++ sources:
  * `ColumnDecimal`  — src/vec/columns (ColumnDecimal<T> implementation file);
    fixed-width values are modelled as `Int`, the arena byte stream as a list
    of fixed-width chunks (`List Int`, one entry per `sizeof(T)` block or per
    null-map byte), and `PaddedPODArray` as `List`.
  * `ColumnConst`    — src/vec/columns/column_const.h and the ColumnConst
    implementation file (constructor, filter, replicate, permute, scatter).
  * `ColumnNullable` — src/vec/columns/column_nullable.cpp, instantiated with
    a fixed-width nested column.
  * `HashTable`      — src/vec/common/hash_table/hash_table.h with
    `Key = Nat` (`0` is the zero key / empty sentinel, as in `ZeroTraits`),
    `Cell = HashTableCell` (a bare key) and `HashTableGrower`.
  * the aggregate-function null adapter — AggregateFunctionNullBase /
    AggregateFunctionNullUnary.

Machine integers (`size_t`, `UInt8`) are modelled as `Nat`, raw values as
`Int`.  Exceptions are modelled with `Except VecError`.  Unbounded probe
loops of the hash table are modelled with explicit fuel equal to the buffer
size; the C++ code relies on the table never being full, which the proved
well-formedness invariant guarantees.
-/

namespace VecCore

/-- Error conditions raised by the column / hash-table code
(`doris::vectorized::ErrorCodes`). -/
inductive VecError where
  | sizesMismatch
  | parameterOutOfBound
  | notImplemented
  | logicalError
  deriving DecidableEq, Repr

/-! ## ColumnDecimal (fixed-width value column)

Model of `ColumnDecimal<T>` from the implementation file concatenated into
src/vec/columns/column_const.h (lines 445-660).  `data` holds the raw
representations, `scale` the number of fractional digits.  The few members
whose bodies live only in headers that are not part of this snapshot
(`insert`, `insertDefault`) are taken from the `ColumnVector<T>` header in
the same file, whose `PaddedPODArray` pattern is identical. -/

structure ColumnDecimal where
  data : List Int
  scale : Nat
  deriving DecidableEq, Repr

/-- Modelled from the spec: the external decimal-comparison primitive
`decimalLess<T>(x, y, x_scale, y_scale)` (declared in the source, defined
outside this snapshot).  Per the spec it "must rescale one operand before
subtracting, never compare raw representations directly", i.e. it decides
`x / 10^x_scale < y / 10^y_scale` exactly, which by cross-multiplication is
`x * 10^y_scale < y * 10^x_scale`. -/
def decimalLess (x y : Int) (x_scale y_scale : Nat) : Bool :=
  x * (10 : Int) ^ y_scale < y * (10 : Int) ^ x_scale

/-- `ColumnDecimal<T>::compareAt` (column_const.h lines 456-466). -/
def ColumnDecimal.compareAt (c : ColumnDecimal) (n m : Nat) (rhs : ColumnDecimal) : Int :=
  let a := c.data.getD n 0
  let b := rhs.data.getD m 0
  if c.scale = rhs.scale then (if a > b then 1 else if a < b then -1 else 0)
  else if decimalLess b a rhs.scale c.scale then 1
  else if decimalLess a b c.scale rhs.scale then -1
  else 0

/-- `ColumnDecimal<T>::serializeValueIntoArena` (column_const.h lines 468-474):
writes the `sizeof(T)` raw bytes of `data[n]` (one chunk in this model) into
the arena and returns the `StringRef` (position, length in chunks). -/
def ColumnDecimal.serializeValueIntoArena (c : ColumnDecimal) (n : Nat) (arena : List Int) :
    List Int × (Nat × Nat) :=
  (arena ++ [c.data.getD n 0], (arena.length, 1))

/-- `ColumnDecimal<T>::deserializeAndInsertFromArena` (column_const.h lines
476-480): appends the chunk at `pos` and returns the advanced cursor. -/
def ColumnDecimal.deserializeAndInsertFromArena (c : ColumnDecimal) (arena : List Int)
    (pos : Nat) : ColumnDecimal × Nat :=
  ({ c with data := c.data ++ [arena.getD pos 0] }, pos + 1)

/-- The while-loop body of `ColumnDecimal<T>::filter` (column_const.h lines
589-594): keep each value whose filter byte is nonzero. -/
def filterLoop : List Int → List Nat → List Int
  | d :: ds, f :: fs => if f ≠ 0 then d :: filterLoop ds fs else filterLoop ds fs
  | _, _ => []

/-- `ColumnDecimal<T>::filter` (column_const.h lines 573-597).  The
`result_size_hint` argument only pre-reserves capacity and has no observable
effect on the result, so it is dropped from the model. -/
def ColumnDecimal.filter (c : ColumnDecimal) (filt : List Nat) :
    Except VecError ColumnDecimal :=
  if c.data.length ≠ filt.length then Except.error VecError.sizesMismatch
  else Except.ok { data := filterLoop c.data filt, scale := c.scale }

/-- `ColumnVector<T>::insertDefault` / decimal default row: `push_back(T())`
(column_const.h line 301); `T()` is the zero value. -/
def ColumnDecimal.insertDefault (c : ColumnDecimal) : ColumnDecimal :=
  { c with data := c.data ++ [0] }

/-- `ColumnVector<T>::insert(const Field &)` (column_const.h lines 347-349):
`push_back` of the unboxed value. -/
def ColumnDecimal.insert (c : ColumnDecimal) (x : Int) : ColumnDecimal :=
  { c with data := c.data ++ [x] }

/-- `ColumnDecimal<T>::insertData` (column_const.h lines 549-554): `memcpy`
of one `sizeof(T)` chunk. -/
def ColumnDecimal.insertData (c : ColumnDecimal) (src : Int) : ColumnDecimal :=
  { c with data := c.data ++ [src] }

/-- `ColumnVector<T>::popBack` / decimal `popBack`: `resize(size - n)`
(column_const.h line 303). -/
def ColumnDecimal.popBack (c : ColumnDecimal) (n : Nat) : ColumnDecimal :=
  { c with data := c.data.take (c.data.length - n) }

def ColumnDecimal.size (c : ColumnDecimal) : Nat := c.data.length

/-- `ColumnDecimal<T>::get64` modelled as the raw value; `operator[]`. -/
def ColumnDecimal.get64 (c : ColumnDecimal) (n : Nat) : Int := c.data.getD n 0

/-- `byteSize()` of the fixed-width column: `data.size() * sizeof(data[0])`
(column_const.h line 311); `sizeof(T)` fixed to 16 bytes (Decimal128). -/
def ColumnDecimal.byteSize (c : ColumnDecimal) : Nat := c.data.length * 16

/-! ## ColumnConst

`ColumnConst` wraps one other column of size 1 plus a repeat count `s`
(column_const.h lines 35-163 and the implementation file src/unnamed/part_001).
The wrapped column is instantiated with the fixed-width model above. -/

structure ColumnConst where
  data : ColumnDecimal
  s : Nat
  deriving DecidableEq, Repr

def ColumnConst.size (c : ColumnConst) : Nat := c.s

/-- `ColumnConst::operator[]` (column_const.h line 62): `(*data)[0]`,
independent of the requested index. -/
def ColumnConst.opIndex (c : ColumnConst) (_ : Nat) : Int := c.data.data.getD 0 0

/-- `ColumnConst::get64` (line 72): `data->get64(0)`. -/
def ColumnConst.get64 (c : ColumnConst) (_ : Nat) : Int := c.data.get64 0

/-- `ColumnConst::getUInt` (line 74): `data->getUInt(0)`. -/
def ColumnConst.getUInt (c : ColumnConst) (_ : Nat) : Int := c.data.data.getD 0 0

/-- `ColumnConst::getInt` (line 76): `data->getInt(0)`. -/
def ColumnConst.getInt (c : ColumnConst) (_ : Nat) : Int := c.data.data.getD 0 0

/-- `ColumnConst::getBool` (line 78): `data->getBool(0)`, i.e.
`bool(data[0])`. -/
def ColumnConst.getBool (c : ColumnConst) (_ : Nat) : Bool := c.data.data.getD 0 0 ≠ 0

/-- `ColumnConst::getFloat64` (line 80): `data->getFloat64(0)` (raw value in
this integral model). -/
def ColumnConst.getFloat64 (c : ColumnConst) (_ : Nat) : Int := c.data.data.getD 0 0

/-- `ColumnConst::getDataAt` (line 66): `data->getDataAt(0)`, the raw chunk
of row 0. -/
def ColumnConst.getDataAt (c : ColumnConst) (_ : Nat) : Int := c.data.data.getD 0 0

/-- `ColumnConst::isNullAt` (line 82): `data->isNullAt(0)`; the wrapped
fixed-width column is never null (`IColumn::isNullAt` default). -/
def ColumnConst.isNullAt (c : ColumnConst) (_ : Nat) : Bool := false

/-- `ColumnConst::insert` (line 86): `++s`, payload untouched. -/
def ColumnConst.insert (c : ColumnConst) (_ : Int) : ColumnConst :=
  { c with s := c.s + 1 }

/-- `ColumnConst::insertData` (line 88). -/
def ColumnConst.insertData (c : ColumnConst) : ColumnConst := { c with s := c.s + 1 }

/-- `ColumnConst::insertFrom` (line 90). -/
def ColumnConst.insertFrom (c : ColumnConst) : ColumnConst := { c with s := c.s + 1 }

/-- `ColumnConst::insertDefault` (line 92). -/
def ColumnConst.insertDefault (c : ColumnConst) : ColumnConst := { c with s := c.s + 1 }

/-- `ColumnConst::insertRangeFrom` (line 84): `s += length`. -/
def ColumnConst.insertRangeFrom (c : ColumnConst) (length : Nat) : ColumnConst :=
  { c with s := c.s + length }

/-- `ColumnConst::byteSize` (line 117): `data->byteSize() + sizeof(s)`. -/
def ColumnConst.byteSize (c : ColumnConst) : Nat := c.data.byteSize + 8

/-- `ColumnConst::serializeValueIntoArena` (column_const.h lines 96-98):
delegates to row 0 of the wrapped column; never throws. -/
def ColumnConst.serializeValueIntoArena (c : ColumnConst) (_ : Nat) (arena : List Int) :
    Except VecError (List Int × (Nat × Nat)) :=
  Except.ok (c.data.serializeValueIntoArena 0 arena)

/-- `ColumnConst::deserializeAndInsertFromArena` (column_const.h lines
100-105): deserializes into the wrapped column, pops the row back,
increments `s` and returns the advanced cursor; never throws. -/
def ColumnConst.deserializeAndInsertFromArena (c : ColumnConst) (arena : List Int)
    (pos : Nat) : Except VecError (ColumnConst × Nat) :=
  let r := c.data.deserializeAndInsertFromArena arena pos
  Except.ok ({ data := r.1.popBack 1, s := c.s + 1 }, r.2)

/-- `countBytesInFilter` (ColumnsCommon, outside this snapshot).  Modelled
from the spec: "mask is one byte per row (nonzero = keep); contract:
result.size() == count_nonzero(mask)". -/
def countBytesInFilter (filt : List Nat) : Nat := (filt.filter (fun b => b ≠ 0)).length

/-- `ColumnConst::filter` (src/unnamed/part_001 lines 39-46). -/
def ColumnConst.filter (c : ColumnConst) (filt : List Nat) : Except VecError ColumnConst :=
  if c.s ≠ filt.length then Except.error VecError.sizesMismatch
  else Except.ok { data := c.data, s := countBytesInFilter filt }

/-! ## ColumnNullable

Model of `ColumnNullable` (src/vec/columns/column_nullable.cpp) with the
fixed-width nested column model.  The null map is a byte per row
(`List Nat`); a row is null iff its byte is nonzero. -/

structure ColumnNullable where
  nested_column : ColumnDecimal
  null_map : List Nat
  deriving DecidableEq, Repr

def ColumnNullable.size (c : ColumnNullable) : Nat := c.null_map.length

/-- `ColumnNullable::isNullAt`: null map byte is nonzero. -/
def ColumnNullable.isNullAt (c : ColumnNullable) (n : Nat) : Bool :=
  c.null_map.getD n 0 ≠ 0

/-- `ColumnNullable::operator[]` (column_nullable.cpp lines 74-76): `Null()`
when the row is null, else the nested value.  `Field` is modelled as
`Option Int` with `none` for `Null`. -/
def ColumnNullable.opIndex (c : ColumnNullable) (n : Nat) : Option Int :=
  if c.isNullAt n then none else some (c.nested_column.data.getD n 0)

/-- `ColumnNullable::insertDefault`.  Modelled from the spec: the body lives
in column_nullable.h which is not part of this snapshot; per the spec a null
row is appended, i.e. the nested column receives its default value and the
null map the byte 1 (mirroring the `insert(Null)` branch of the .cpp). -/
def ColumnNullable.insertDefault (c : ColumnNullable) : ColumnNullable :=
  { nested_column := c.nested_column.insertDefault, null_map := c.null_map ++ [1] }

/-- `ColumnNullable::insert` (column_nullable.cpp lines 136-144). -/
def ColumnNullable.insert (c : ColumnNullable) (x : Option Int) : ColumnNullable :=
  match x with
  | none => { nested_column := c.nested_column.insertDefault, null_map := c.null_map ++ [1] }
  | some v => { nested_column := c.nested_column.insert v, null_map := c.null_map ++ [0] }

/-- `ColumnNullable::insertData` (column_nullable.cpp lines 90-98); the
`pos` pointer is `none` for `nullptr`. -/
def ColumnNullable.insertData (c : ColumnNullable) (pos : Option Int) : ColumnNullable :=
  match pos with
  | none => { nested_column := c.nested_column.insertDefault, null_map := c.null_map ++ [1] }
  | some v => { nested_column := c.nested_column.insertData v, null_map := c.null_map ++ [0] }

/-- `ColumnNullable::serializeValueIntoArena` (column_nullable.cpp lines
100-114): writes the null-map byte, then the nested row when the byte is 0;
returns the combined `StringRef`. -/
def ColumnNullable.serializeValueIntoArena (c : ColumnNullable) (n : Nat)
    (arena : List Int) : List Int × (Nat × Nat) :=
  let b := c.null_map.getD n 0
  let arena1 := arena ++ [(b : Int)]
  if b ≠ 0 then (arena1, (arena.length, 1))
  else
    let r := c.nested_column.serializeValueIntoArena n arena1
    (r.1, (r.2.1 - 1, r.2.2 + 1))

/-- `ColumnNullable::deserializeAndInsertFromArena` (column_nullable.cpp
lines 116-128): reads the null byte, pushes it onto the null map as is, then
either deserializes the nested row (byte 0) or appends the nested default. -/
def ColumnNullable.deserializeAndInsertFromArena (c : ColumnNullable) (arena : List Int)
    (pos : Nat) : ColumnNullable × Nat :=
  let val := (arena.getD pos 0).toNat
  let pos1 := pos + 1
  if val = 0 then
    let r := c.nested_column.deserializeAndInsertFromArena arena pos1
    ({ nested_column := r.1, null_map := c.null_map ++ [val] }, r.2)
  else
    ({ nested_column := c.nested_column.insertDefault, null_map := c.null_map ++ [val] }, pos1)

/-! ### ColumnNullable::getPermutation (column_nullable.cpp lines 214-285)

The nested ordering is produced by the virtual `getPermutation` of the
nested column; it is a parameter `nestedPerm` of the model.  The index array
is a `List Nat`; `listSwap` is `std::swap(res[i], res[j])`. -/

def listSwap (l : List Nat) (i j : Nat) : List Nat :=
  (l.set i (l.getD j 0)).set j (l.getD i 0)

/-- First loop of the nulls-to-end branch (lines 232-236): advance both
indices past the leading non-null prefix (bounded by `limit`); returns the
common final index. -/
def npSkip (isNull : Nat → Bool) (res : List Nat) (limit read : Nat) : Nat :=
  if read < limit ∧ ¬ isNull (res.getD read 0) then npSkip isNull res limit (read + 1)
  else read
termination_by limit - read
decreasing_by omega

/-- Second loop of the nulls-to-end branch (lines 250-258): swap each
non-null entry forward to `write`. -/
def npShiftLoop (isNull : Nat → Bool) (res : List Nat) (limit endIdx write read : Nat) :
    List Nat :=
  if read < endIdx ∧ write < limit then
    if isNull (res.getD read 0) then npShiftLoop isNull res limit endIdx write (read + 1)
    else npShiftLoop isNull (listSwap res read write) limit endIdx (write + 1) (read + 1)
  else res
termination_by endIdx - read
decreasing_by all_goals omega

/-- First loop of the nulls-to-front branch (lines 267-271), with the
`ssize_t` index `read` encoded as the `Nat` `read + 1` (so 0 encodes -1):
step down past the trailing non-null suffix. -/
def npSkipDown (isNull : Nat → Bool) (res : List Nat) : Nat → Nat
  | 0 => 0
  | pos + 1 => if ¬ isNull (res.getD pos 0) then npSkipDown isNull res pos else pos + 1

/-- Second loop of the nulls-to-front branch (lines 275-283); both `ssize_t`
indices are encoded as `Nat` successors. -/
def npShiftDownLoop (isNull : Nat → Bool) (res : List Nat) :
    Nat → Nat → List Nat
  | _, 0 => res
  | writePos, readPos + 1 =>
    if writePos = 0 then res
    else if ¬ isNull (res.getD readPos 0) then
      npShiftDownLoop isNull (listSwap res readPos (writePos - 1)) (writePos - 1) readPos
    else npShiftDownLoop isNull res writePos readPos

/-- The partition pass of `ColumnNullable::getPermutation` applied to the
index array `res` (everything after line 217). -/
def nullsPartition (isNull : Nat → Bool) (reverse : Bool) (limit : Nat)
    (null_direction_hint : Int) (res : List Nat) : List Nat :=
  if (decide (null_direction_hint > 0)) ≠ reverse then
    let endIdx := res.length
    let limit1 := if limit = 0 then endIdx else min endIdx limit
    let write := npSkip isNull res limit1 0
    npShiftLoop isNull res limit1 endIdx write (write + 1)
  else
    let pos := npSkipDown isNull res res.length
    npShiftDownLoop isNull res pos (pos - 1)

/-- `ColumnNullable::getPermutation` (column_nullable.cpp lines 214-285):
obtains the full nested ordering (nested limit 0) and partitions it by
nullness.  `nestedPerm` stands for the virtual `getPermutation` of the
nested column, `isNull` for `isNullAt`. -/
def nullableGetPermutation (nestedPerm : Bool → Nat → Int → List Nat)
    (isNull : Nat → Bool) (reverse : Bool) (limit : Nat)
    (null_direction_hint : Int) : List Nat :=
  let res := nestedPerm reverse 0 null_direction_hint
  nullsPartition isNull reverse limit null_direction_hint res

/-! ## Aggregate-function null adapter

`AggregateFunctionNullBase` / `AggregateFunctionNullUnary`
(src/vec/data_types/data_types_number.h lines 346-489).  The state is the
flag byte plus the nested state; the nested aggregate function is a
parameter (`nestedAdd`, `nestedInsertResultInto`, `nestedCreate`). -/

structure AggNullState (σ : Type) where
  flag : Bool
  nested : σ
  deriving DecidableEq, Repr

/-- `initFlag` + `create` (lines 367-369, 400-403). -/
def aggNullCreate {σ : Type} (nestedCreate : σ) : AggNullState σ :=
  { flag := false, nested := nestedCreate }

/-- `getFlag` (lines 375-377): the stored flag when the result is nullable,
else constant 1. -/
def aggNullGetFlag {σ : Type} (result_is_nullable : Bool) (st : AggNullState σ) : Bool :=
  if result_is_nullable then st.flag else true

/-- `AggregateFunctionNullUnary::add` (lines 480-488): skip the row when the
single argument is null, else set the flag and forward the nested column row
to the nested add. -/
def aggNullUnaryAdd {σ : Type} (result_is_nullable : Bool)
    (nestedAdd : σ → ColumnDecimal → Nat → σ) (st : AggNullState σ)
    (column : ColumnNullable) (row_num : Nat) : AggNullState σ :=
  if ¬ column.isNullAt row_num then
    { flag := if result_is_nullable then true else st.flag,
      nested := nestedAdd st.nested column.nested_column row_num }
  else st

/-- `AggregateFunctionNullBase::insertResultInto` (lines 442-455),
`result_is_nullable = true` branch: the target is a `ColumnNullable`; emit
the nested result tagged non-null when the flag is set, else a null row. -/
def aggNullInsertResultInto {σ : Type}
    (nestedInsertResultInto : σ → ColumnDecimal → ColumnDecimal)
    (st : AggNullState σ) (tgt : ColumnNullable) : ColumnNullable :=
  if aggNullGetFlag true st then
    { nested_column := nestedInsertResultInto st.nested tgt.nested_column,
      null_map := tgt.null_map ++ [0] }
  else tgt.insertDefault

/-- `IAggregateFunctionHelper::addBatchSinglePlace` (lines 266-270): fold
`add` over the rows `0, …, batch_size - 1`. -/
def addBatchSinglePlace {σ : Type} (batch_size : Nat) (add : σ → Nat → σ) (st : σ) : σ :=
  (List.range batch_size).foldl add st

/-- Nested "count" semantics used by the spec example: state is the row
count, `add` increments it, the result is inserted as a value row. -/
def countAdd (s : Nat) (_ : ColumnDecimal) (_ : Nat) : Nat := s + 1

def countInsertResultInto (s : Nat) (tgt : ColumnDecimal) : ColumnDecimal :=
  { tgt with data := tgt.data ++ [(s : Int)] }

/-! ## List helper lemmas -/

theorem getD_at_append (X Z : List Nat) (u : Nat) :
    (X ++ u :: Z).getD X.length 0 = u := by
  induction X with
  | nil => rfl
  | cons x xs ih => simpa using ih

theorem getD_int_at_append (X Z : List Int) (u : Int) :
    (X ++ u :: Z).getD X.length 0 = u := by
  induction X with
  | nil => rfl
  | cons x xs ih => simpa using ih

theorem set_at_append (X W : List Nat) (u v : Nat) :
    (X ++ u :: W).set X.length v = X ++ v :: W := by
  induction X with
  | nil => rfl
  | cons x xs ih => simpa using ih

theorem getD_append_left {l l2 : List Nat} {i : Nat} (h : i < l.length) :
    (l ++ l2).getD i 0 = l.getD i 0 := by
  induction l generalizing i with
  | nil => simp at h
  | cons x xs ih =>
    cases i with
    | zero => rfl
    | succ n => simpa using ih (by simpa using h)

theorem getD_append_add (X W : List Nat) (k : Nat) :
    (X ++ W).getD (X.length + k) 0 = W.getD k 0 := by
  induction X with
  | nil => simp
  | cons x xs ih => simpa [Nat.succ_add] using ih

theorem listSwap_cons (x : Nat) (l : List Nat) (i j : Nat) :
    listSwap (x :: l) (i + 1) (j + 1) = x :: listSwap l i j := by
  simp [listSwap]

theorem listSwap_decomp (A B2 C2 : List Nat) (b c : Nat) :
    listSwap (A ++ (b :: B2) ++ (c :: C2)) (A.length + (B2.length + 1)) A.length =
      A ++ (c :: B2) ++ (b :: C2) := by
  induction A with
  | nil =>
    simp only [List.nil_append, List.length_nil, Nat.zero_add]
    unfold listSwap
    have e1 : ((b :: B2) ++ c :: C2).getD (B2.length + 1) 0 = c := by
      simpa using getD_at_append B2 C2 c
    have e2 : ((b :: B2) ++ c :: C2).getD 0 0 = b := rfl
    rw [e1, e2]
    simp only [List.cons_append, List.set_cons_succ, List.set_cons_zero]
    rw [set_at_append B2 C2 c b]
  | cons x xs ih =>
    have hx : (x :: xs).length = xs.length + 1 := rfl
    rw [hx, show xs.length + 1 + (B2.length + 1) = (xs.length + (B2.length + 1)) + 1 by omega]
    show listSwap (x :: (xs ++ (b :: B2) ++ (c :: C2))) ((xs.length + (B2.length + 1)) + 1)
        (xs.length + 1) = x :: (xs ++ (c :: B2) ++ (b :: C2))
    rw [listSwap_cons, ih]

theorem listSwap_comm (l : List Nat) (i j : Nat) (h : i ≠ j) :
    listSwap l i j = listSwap l j i := by
  unfold listSwap
  rw [List.set_comm _ _ _ (Ne.symm h)]

theorem filter_eq_self_of_forall (p : Nat → Bool) (l : List Nat)
    (h : ∀ x ∈ l, p x = true) : l.filter p = l :=
  List.filter_eq_self.mpr h

theorem filter_eq_nil_of_forall (p : Nat → Bool) (l : List Nat)
    (h : ∀ x ∈ l, p x = false) : l.filter p = [] :=
  List.filter_eq_nil_iff.mpr fun a ha => by simp [h a ha]

/-! ## Claim C4 — decimal compareAt -/

/-- C4: `ColumnDecimal::compareAt` three-way-compares the raw values when the
two scales are equal, and for different scales decides the exact rescaled
(rational) comparison through the external `decimalLess` primitive; in
particular raw 150 at scale 2 and raw 1500 at scale 3 compare equal. -/
theorem decimal_compareAt_rescaled (c1 c2 : ColumnDecimal) (n m : Nat) :
    (c1.scale = c2.scale →
      c1.compareAt n m c2 =
        (if c1.data.getD n 0 > c2.data.getD m 0 then 1
         else if c1.data.getD n 0 < c2.data.getD m 0 then -1 else 0)) ∧
    (c1.scale ≠ c2.scale →
      ((c1.compareAt n m c2 = 1 ↔
          c2.data.getD m 0 * (10 : Int) ^ c1.scale < c1.data.getD n 0 * (10 : Int) ^ c2.scale) ∧
       (c1.compareAt n m c2 = -1 ↔
          c1.data.getD n 0 * (10 : Int) ^ c2.scale < c2.data.getD m 0 * (10 : Int) ^ c1.scale) ∧
       (c1.compareAt n m c2 = 0 ↔
          c1.data.getD n 0 * (10 : Int) ^ c2.scale = c2.data.getD m 0 * (10 : Int) ^ c1.scale))) ∧
    ColumnDecimal.compareAt { data := [150], scale := 2 } 0 0 { data := [1500], scale := 3 } = 0 := by
  refine ⟨fun h => by simp [ColumnDecimal.compareAt, h], fun h => ?_, by decide⟩
  simp only [ColumnDecimal.compareAt, decimalLess, if_neg h]
  set a := c1.data.getD n 0
  set b := c2.data.getD m 0
  rcases lt_trichotomy (b * (10 : Int) ^ c1.scale) (a * (10 : Int) ^ c2.scale) with hlt | heq | hgt
  · simp [hlt, not_lt.mpr (le_of_lt hlt)]
    omega
  · simp [heq]
  · simp [hgt, not_lt.mpr (le_of_lt hgt), lt_asymm hgt]
    omega

/-- C4 witness: the theorem applied at the concrete decimal columns of the
spec example (scales 2 and 3, raws 150 and 1500). -/
theorem decimal_compareAt_rescaled_witness :
    ColumnDecimal.compareAt { data := [150], scale := 2 } 0 0 { data := [1500], scale := 3 } = 0 ∧
    (ColumnDecimal.compareAt { data := [150], scale := 2 } 0 0 { data := [1500], scale := 3 } = 0 ↔
      (150 : Int) * (10 : Int) ^ (3 : Nat) = (1500 : Int) * (10 : Int) ^ (2 : Nat)) := by
  have h := decimal_compareAt_rescaled { data := [150], scale := 2 }
    { data := [1500], scale := 3 } 0 0
  exact ⟨h.2.2, (h.2.1 (by decide)).2.2⟩

/-! ## Claim C5 — filter -/

theorem filterLoop_eq_zip_filter (d : List Int) (f : List Nat) :
    filterLoop d f = ((d.zip f).filter fun p => p.2 ≠ 0).map Prod.fst := by
  induction d generalizing f with
  | nil => cases f <;> rfl
  | cons x xs ih =>
    cases f with
    | nil => rfl
    | cons b bs =>
      by_cases hb : b = 0 <;> simp [filterLoop, hb, List.zip, ih]

theorem filterLoop_length (d : List Int) (f : List Nat) (h : d.length = f.length) :
    (filterLoop d f).length = countBytesInFilter f := by
  induction d generalizing f with
  | nil =>
    cases f with
    | nil => rfl
    | cons b bs => simp at h
  | cons x xs ih =>
    cases f with
    | nil => simp at h
    | cons b bs =>
      have h2 : xs.length = bs.length := by simpa using h
      have ih2 := ih bs h2
      simp only [countBytesInFilter] at ih2 ⊢
      by_cases hb : b = 0
      · simpa [filterLoop, hb] using ih2
      · simpa [filterLoop, hb] using ih2

/-- C5: for the decimal column a filter mask of the wrong length raises the
size-mismatch error, and otherwise the result keeps exactly the rows at
nonzero mask positions in their original order (so its size is the number of
nonzero mask bytes); for `ColumnConst` a wrong-length mask likewise fails and
otherwise the result is a const column over the same wrapped data whose
repeat count is the nonzero count. -/
theorem filter_contract (c : ColumnDecimal) (k : ColumnConst) (filt : List Nat) :
    (filt.length ≠ c.size → c.filter filt = Except.error VecError.sizesMismatch) ∧
    (filt.length = c.size →
      c.filter filt =
        Except.ok { data := ((c.data.zip filt).filter fun p => p.2 ≠ 0).map Prod.fst,
                    scale := c.scale } ∧
      ∀ r, c.filter filt = Except.ok r → r.size = countBytesInFilter filt) ∧
    (filt.length ≠ k.size → k.filter filt = Except.error VecError.sizesMismatch) ∧
    (filt.length = k.size →
      k.filter filt = Except.ok { data := k.data, s := countBytesInFilter filt }) := by
  refine ⟨fun h => ?_, fun h => ⟨?_, ?_⟩, fun h => ?_, fun h => ?_⟩
  · simp only [ColumnDecimal.filter, ColumnDecimal.size] at *
    rw [if_pos (by omega)]
  · simp only [ColumnDecimal.filter, ColumnDecimal.size] at *
    rw [if_neg (by omega), filterLoop_eq_zip_filter]
  · intro r hr
    simp only [ColumnDecimal.filter, ColumnDecimal.size] at *
    rw [if_neg (by omega)] at hr
    cases hr
    simpa [ColumnDecimal.size] using filterLoop_length c.data filt (by omega)
  · simp only [ColumnConst.filter, ColumnConst.size] at *
    rw [if_pos (by omega)]
  · simp only [ColumnConst.filter, ColumnConst.size] at *
    rw [if_neg (by omega)]

/-- C5 witness: the theorem applied to a concrete decimal column, const
column and mask. -/
theorem filter_contract_witness :
    ColumnDecimal.filter { data := [10, 20, 30], scale := 1 } [1, 0, 2] =
      Except.ok { data := [10, 30], scale := 1 } ∧
    ColumnConst.filter { data := { data := [7], scale := 0 }, s := 3 } [1, 0, 2] =
      Except.ok { data := { data := [7], scale := 0 }, s := 2 } ∧
    ColumnDecimal.filter { data := [10, 20, 30], scale := 1 } [1] =
      Except.error VecError.sizesMismatch := by
  have h1 := (filter_contract { data := [10, 20, 30], scale := 1 }
    { data := { data := [7], scale := 0 }, s := 3 } [1, 0, 2]).2.1 (by decide)
  have h2 := (filter_contract { data := [10, 20, 30], scale := 1 }
    { data := { data := [7], scale := 0 }, s := 3 } [1, 0, 2]).2.2.2 (by decide)
  have h3 := (filter_contract { data := [10, 20, 30], scale := 1 }
    { data := { data := [7], scale := 0 }, s := 3 } [1]).1 (by decide)
  exact ⟨by rw [h1.1]; rfl, by rw [h2]; rfl, h3⟩

/-! ## Claim C2 — ColumnConst serialization does not refuse (corrected) -/

/-- C2 counterexample: on a concrete const column both
`serializeValueIntoArena` and `deserializeAndInsertFromArena` succeed (no
error is raised), refuting the claim that the calls fail. -/
theorem columnconst_serde_not_refused :
    ColumnConst.serializeValueIntoArena { data := { data := [42], scale := 0 }, s := 5 } 3 [] =
      Except.ok ([42], (0, 1)) ∧
    ColumnConst.deserializeAndInsertFromArena { data := { data := [42], scale := 0 }, s := 5 }
      [7] 0 =
      Except.ok ({ data := { data := [42], scale := 0 }, s := 6 }, 1) := by
  constructor <;> rfl

/-- C2 (amended): `ColumnConst::serializeValueIntoArena` succeeds and
serializes the wrapped column's row 0, and
`deserializeAndInsertFromArena` succeeds, leaves the wrapped data unchanged
(the deserialized row is immediately popped back), increments the repeat
count and returns the cursor advanced past the encoding. -/
theorem columnconst_serde_delegates (c : ColumnConst) (n : Nat) (arena : List Int)
    (pos : Nat) :
    c.serializeValueIntoArena n arena =
      Except.ok (arena ++ [c.data.data.getD 0 0], (arena.length, 1)) ∧
    c.deserializeAndInsertFromArena arena pos =
      Except.ok ({ data := c.data, s := c.s + 1 }, pos + 1) := by
  refine ⟨rfl, ?_⟩
  simp only [ColumnConst.deserializeAndInsertFromArena,
    ColumnDecimal.deserializeAndInsertFromArena, ColumnDecimal.popBack]
  have h : (c.data.data ++ [arena.getD pos 0]).take
      ((c.data.data ++ [arena.getD pos 0]).length - 1) = c.data.data := by
    have hl : (c.data.data ++ [arena.getD pos 0]).length - 1 = c.data.data.length := by
      simp
    rw [hl]
    exact List.take_left c.data.data [arena.getD pos 0]
  rw [h]

/-! ## Claim C9 — ColumnConst accessors and inserts -/

/-- C9: every `ColumnConst` read accessor returns the wrapped column's row-0
value at any index, `size()` is the repeat count, and every insert operation
only increases `s`, leaving the wrapped data column — and therefore the data
term of `byteSize()` — unchanged. -/
theorem columnconst_delegation_frame (c : ColumnConst) (i j : Nat) (v : Int) (len : Nat) :
    (c.opIndex i = c.data.data.getD 0 0 ∧ c.opIndex i = c.opIndex j) ∧
    (c.get64 i = c.data.get64 0 ∧ c.get64 i = c.get64 j) ∧
    (c.getUInt i = c.data.data.getD 0 0 ∧ c.getInt i = c.data.data.getD 0 0 ∧
     c.getFloat64 i = c.data.data.getD 0 0 ∧ c.getDataAt i = c.data.data.getD 0 0) ∧
    (c.getBool i = decide (c.data.data.getD 0 0 ≠ 0) ∧ c.isNullAt i = false) ∧
    c.size = c.s ∧
    ((c.insert v).data = c.data ∧ (c.insert v).s = c.s + 1) ∧
    (c.insertData.data = c.data ∧ c.insertData.s = c.s + 1) ∧
    (c.insertFrom.data = c.data ∧ c.insertFrom.s = c.s + 1) ∧
    (c.insertDefault.data = c.data ∧ c.insertDefault.s = c.s + 1) ∧
    ((c.insertRangeFrom len).data = c.data ∧ (c.insertRangeFrom len).s = c.s + len) ∧
    ((c.insert v).byteSize = c.byteSize ∧ (c.insertRangeFrom len).byteSize = c.byteSize) :=
  ⟨⟨rfl, rfl⟩, ⟨rfl, rfl⟩, ⟨rfl, rfl, rfl, rfl⟩, ⟨rfl, rfl⟩, rfl, ⟨rfl, rfl⟩,
    ⟨rfl, rfl⟩, ⟨rfl, rfl⟩, ⟨rfl, rfl⟩, ⟨rfl, rfl⟩, ⟨rfl, rfl⟩⟩

/-! ## Claim C10 — null rows extend the nested column (corrected) -/

/-- C10 counterexample: deserializing an encoding whose null byte is 2
(nonzero) pushes the byte 2 onto the null map, not the byte 1 the claim
states. -/
theorem nullable_deserialize_byte_not_one :
    (ColumnNullable.deserializeAndInsertFromArena
        { nested_column := { data := [], scale := 0 }, null_map := [] } [2] 0).1.null_map =
      [2] ∧ ([2] : List Nat) ≠ [1] := by
  constructor <;> decide

/-- C10 (amended): every null-appending path extends the nested column by
exactly one default row: `insert` of a Null field and `insertData` with a
null pointer push the null-map byte 1, and `deserializeAndInsertFromArena`
of an encoding with nonzero null byte pushes that byte as is. -/
theorem nullable_null_rows_extend_nested (c : ColumnNullable) (arena : List Int) (pos : Nat) :
    ((c.insert none).nested_column.data = c.nested_column.data ++ [0] ∧
      (c.insert none).null_map = c.null_map ++ [1]) ∧
    ((c.insertData none).nested_column.data = c.nested_column.data ++ [0] ∧
      (c.insertData none).null_map = c.null_map ++ [1]) ∧
    ((arena.getD pos 0).toNat ≠ 0 →
      (c.deserializeAndInsertFromArena arena pos).1.nested_column.data =
          c.nested_column.data ++ [0] ∧
      (c.deserializeAndInsertFromArena arena pos).1.null_map =
          c.null_map ++ [(arena.getD pos 0).toNat]) := by
  refine ⟨⟨rfl, rfl⟩, ⟨rfl, rfl⟩, fun h => ?_⟩
  simp only [ColumnNullable.deserializeAndInsertFromArena]
  rw [if_neg h]
  exact ⟨rfl, rfl⟩

/-! ## Claim C3 — nullable getPermutation partitions by nullness -/

theorem npSkip_spec (isNull : Nat → Bool) (res : List Nat) (limit : Nat) :
    ∀ fuel read, limit - read ≤ fuel →
      read ≤ npSkip isNull res limit read ∧
      (read ≤ limit → npSkip isNull res limit read ≤ limit) ∧
      (∀ i, read ≤ i → i < npSkip isNull res limit read → isNull (res.getD i 0) = false) ∧
      (npSkip isNull res limit read < limit →
        isNull (res.getD (npSkip isNull res limit read) 0) = true) := by
  intro fuel
  induction fuel with
  | zero =>
    intro read hf
    have hlim : limit ≤ read := by omega
    rw [npSkip]
    rw [if_neg (by omega)]
    exact ⟨le_refl _, fun h => h, fun i h1 h2 => absurd h2 (by omega), fun h => by omega⟩
  | succ f ih =>
    intro read hf
    rw [npSkip]
    by_cases hc : read < limit ∧ ¬ isNull (res.getD read 0)
    · rw [if_pos hc]
      obtain ⟨h1, h2, h3, h4⟩ := ih (read + 1) (by omega)
      refine ⟨by omega, fun _ => h2 (by omega), fun i hi1 hi2 => ?_, h4⟩
      rcases Nat.eq_or_lt_of_le hi1 with he | hl
      · subst he; simpa using hc.2
      · exact h3 i hl hi2
    · rw [if_neg hc]
      refine ⟨le_refl _, fun h => h, fun i h1 h2 => absurd h2 (by omega), fun h => ?_⟩
      rcases not_and_or.mp hc with h5 | h5
      · omega
      · simpa using h5

theorem npShiftLoop_spec (isNull : Nat → Bool) :
    ∀ (C B A : List Nat) (limit endIdx : Nat),
      limit = A.length + B.length + C.length →
      endIdx = A.length + B.length + C.length →
      B ≠ [] →
      ∃ nl, npShiftLoop isNull (A ++ B ++ C) limit endIdx A.length (A.length + B.length) =
          A ++ (C.filter fun x => !isNull x) ++ nl ∧
        nl.Perm (B ++ C.filter fun x => isNull x) := by
  intro C
  induction C with
  | nil =>
    intro B A limit endIdx hl he hB
    refine ⟨B, ?_, by simp⟩
    rw [npShiftLoop]
    rw [if_neg (by simp at hl he ⊢; omega)]
    simp
  | cons c C2 ihC =>
    intro B A limit endIdx hl he hB
    have hread : (A ++ B ++ (c :: C2)).getD (A.length + B.length) 0 = c := by
      have h1 : A ++ B ++ (c :: C2) = A ++ (B ++ (c :: C2)) := by simp
      rw [h1, getD_append_add A (B ++ (c :: C2)) B.length, getD_at_append]
    rw [npShiftLoop]
    rw [if_pos (by constructor <;> (simp at hl he ⊢; omega))]
    by_cases hc : isNull c = true
    · rw [hread, if_pos hc]
      obtain ⟨nl, e1, e2⟩ := ihC (B ++ [c]) A limit endIdx
        (by simp at hl ⊢; omega) (by simp at he ⊢; omega) (by simp)
      rw [show A ++ (B ++ [c]) ++ C2 = A ++ B ++ c :: C2 from by simp] at e1
      rw [show (B ++ [c]).length = B.length + 1 from by simp] at e1
      refine ⟨nl, ?_, ?_⟩
      · rw [show A.length + B.length + 1 = A.length + (B.length + 1) from by omega, e1]
        simp [List.filter_cons, hc]
      · rw [List.filter_cons, if_pos (by simpa using hc)]
        exact e2.trans (by simp)
    · have hcf : isNull c = false := by simpa using hc
      rw [hread, if_neg hc]
      obtain ⟨b, B2, hBd⟩ : ∃ b B2, B = b :: B2 := by
        cases B with
        | nil => exact absurd rfl hB
        | cons b B2 => exact ⟨b, B2, rfl⟩
      subst hBd
      have hswap : listSwap (A ++ (b :: B2) ++ (c :: C2)) (A.length + (b :: B2).length)
          A.length = A ++ (c :: B2) ++ (b :: C2) := by
        rw [show (b :: B2).length = B2.length + 1 from rfl]
        exact listSwap_decomp A B2 C2 b c
      obtain ⟨nl, e1, e2⟩ := ihC (B2 ++ [b]) (A ++ [c]) limit endIdx
        (by simp at hl ⊢; omega) (by simp at he ⊢; omega) (by simp)
      rw [show (A ++ [c]) ++ (B2 ++ [b]) ++ C2 = A ++ (c :: B2) ++ (b :: C2) from by simp]
        at e1
      rw [show (A ++ [c]).length = A.length + 1 from by simp] at e1
      rw [show (B2 ++ [b]).length = B2.length + 1 from by simp] at e1
      refine ⟨nl, ?_, ?_⟩
      · rw [hswap]
        rw [show A.length + (b :: B2).length + 1 = A.length + 1 + (B2.length + 1) from
          by simp only [List.length_cons]; omega]
        rw [e1]
        simp [List.filter_cons, hcf]
      · rw [List.filter_cons, if_neg (by simp [hcf])]
        exact e2.trans (List.Perm.append_right _ (List.perm_append_singleton b B2))

theorem npSkipDown_spec (isNull : Nat → Bool) (res : List Nat) :
    ∀ k,
      npSkipDown isNull res k ≤ k ∧
      (∀ i, npSkipDown isNull res k ≤ i → i < k → isNull (res.getD i 0) = false) ∧
      (0 < npSkipDown isNull res k →
        isNull (res.getD (npSkipDown isNull res k - 1) 0) = true) := by
  intro k
  induction k with
  | zero =>
    have h0 : npSkipDown isNull res 0 = 0 := rfl
    exact ⟨by simp [h0], fun i h1 h2 => absurd h2 (by omega), fun h => by simp [h0] at h⟩
  | succ p ih =>
    by_cases hc : isNull (res.getD p 0) = true
    · rw [npSkipDown, if_neg (not_not_intro hc)]
      exact ⟨le_refl _, fun i h1 h2 => absurd h2 (by omega),
        fun _ => by rw [Nat.add_sub_cancel]; exact hc⟩
    · rw [npSkipDown, if_pos hc]
      obtain ⟨h1, h2, h3⟩ := ih
      refine ⟨by omega, fun i hi1 hi2 => ?_, h3⟩
      rcases Nat.lt_or_ge i p with hl | hg
      · exact h2 i hi1 hl
      · have hip : i = p := by omega
        subst hip
        simpa using hc

theorem npShiftDownLoop_spec (isNull : Nat → Bool) :
    ∀ (C B A : List Nat), B ≠ [] →
      ∃ nl, npShiftDownLoop isNull (C ++ B ++ A) (C.length + B.length) C.length =
          nl ++ (C.filter fun x => !isNull x) ++ A ∧
        nl.Perm ((C.filter fun x => isNull x) ++ B) := by
  intro C
  induction C using List.reverseRecOn with
  | nil =>
    intro B A hB
    refine ⟨B, ?_, by simp⟩
    simp [npShiftDownLoop]
  | append_singleton C2 c ihC =>
    intro B A hB
    have hread : ((C2 ++ [c]) ++ B ++ A).getD C2.length 0 = c := by
      have h1 : (C2 ++ [c]) ++ B ++ A = C2 ++ (c :: (B ++ A)) := by simp
      rw [h1, getD_at_append]
    rw [show (C2 ++ [c]).length = C2.length + 1 from by simp]
    rw [show C2.length + 1 + B.length = C2.length + (B.length + 1) from by omega]
    rw [npShiftDownLoop]
    rw [if_neg (by omega)]
    by_cases hc : isNull c = true
    · rw [hread, if_neg (by simp [hc])]
      obtain ⟨nl, e1, e2⟩ := ihC (c :: B) A (by simp)
      rw [show C2 ++ (c :: B) ++ A = (C2 ++ [c]) ++ B ++ A from by simp] at e1
      rw [show (c :: B).length = B.length + 1 from rfl] at e1
      refine ⟨nl, e1.trans ?_, ?_⟩
      · simp [List.filter_append, hc]
      · refine e2.trans ?_
        simp only [List.filter_append, List.filter_cons, List.filter_nil]
        rw [if_pos (by simpa using hc)]
        simp
    · have hcf : isNull c = false := by simpa using hc
      rw [hread, if_pos (by simp [hcf])]
      obtain ⟨b, B2, hBd⟩ : ∃ b B2, B = B2 ++ [b] := by
        rcases List.eq_nil_or_concat B with h | ⟨B2, b, h⟩
        · exact absurd h hB
        · exact ⟨b, B2, by simpa using h⟩
      subst hBd
      have hswap : listSwap ((C2 ++ [c]) ++ (B2 ++ [b]) ++ A) C2.length
          (C2.length + ((B2 ++ [b]).length + 1) - 1) = C2 ++ (b :: B2) ++ (c :: A) := by
        have hs1 : (C2 ++ [c]) ++ (B2 ++ [b]) ++ A = C2 ++ (c :: B2) ++ (b :: A) := by simp
        have hs2 : C2.length + ((B2 ++ [b]).length + 1) - 1 = C2.length + (B2.length + 1) := by
          simp only [List.length_append, List.length_cons, List.length_nil]; omega
        rw [hs1, hs2, listSwap_comm _ _ _ (by omega), listSwap_decomp C2 B2 A c b]
      obtain ⟨nl, e1, e2⟩ := ihC (b :: B2) (c :: A) (by simp)
      rw [show (b :: B2).length = B2.length + 1 from rfl] at e1
      refine ⟨nl, ?_, ?_⟩
      · rw [hswap]
        rw [show C2.length + ((B2 ++ [b]).length + 1) - 1 = C2.length + (B2.length + 1) from
          by simp only [List.length_append, List.length_cons, List.length_nil]; omega]
        rw [e1]
        simp [List.filter_append, List.filter_cons, hcf]
      · refine e2.trans ?_
        simp only [List.filter_append, List.filter_cons, List.filter_nil]
        rw [if_neg (by simp [hcf])]
        simp only [List.append_nil]
        exact List.Perm.append_left _ (List.perm_append_singleton b B2).symm

theorem forall_mem_take_of_getD (isNull : Nat → Bool) (res : List Nat) (j : Nat)
    (h : ∀ i, i < j → isNull (res.getD i 0) = false) :
    ∀ a ∈ res.take j, isNull a = false := by
  intro a ha
  obtain ⟨i, hi, he⟩ := List.mem_iff_getElem.mp ha
  have hij : i < j := by
    have hx := hi
    simp only [List.length_take] at hx
    omega
  have hil : i < res.length := by
    have hx := hi
    simp only [List.length_take] at hx
    omega
  have hgd : res.getD i 0 = a := by
    rw [List.getD_eq_getElem?_getD, List.getElem?_eq_getElem hil]
    simp only [Option.getD_some]
    rw [← he]
    exact (List.getElem_take res).symm
  rw [← hgd]
  exact h i hij

theorem forall_mem_drop_of_getD (isNull : Nat → Bool) (res : List Nat) (p : Nat)
    (h : ∀ i, p ≤ i → i < res.length → isNull (res.getD i 0) = false) :
    ∀ a ∈ res.drop p, isNull a = false := by
  intro a ha
  obtain ⟨i, hi, he⟩ := List.mem_iff_getElem.mp ha
  have hil : p + i < res.length := by
    have hx := hi
    simp only [List.length_drop] at hx
    omega
  have hgd : res.getD (p + i) 0 = a := by
    rw [List.getD_eq_getElem?_getD, List.getElem?_eq_getElem hil]
    simp only [Option.getD_some]
    rw [← he]
    exact (List.getElem_drop res).symm
  rw [← hgd]
  exact h (p + i) (by omega) hil

theorem decomp_at {res : List Nat} {j : Nat} (h : j < res.length) :
    res = res.take j ++ res.getD j 0 :: res.drop (j + 1) := by
  conv_lhs => rw [← List.take_append_drop j res]
  congr 1
  rw [List.drop_eq_getElem_cons h]
  congr 1
  rw [List.getD_eq_getElem?_getD, List.getElem?_eq_getElem h]
  rfl

/-- C3: `ColumnNullable::getPermutation` first computes the nested column's
full ordering (the nested `getPermutation` is always invoked with limit 0,
so the result depends on it only through that full ordering), then performs
one linear partition pass: with limit 0, the null rows all move to the end
exactly when `(null_direction_hint > 0) != reverse` and to the front
otherwise, preserving the relative order of the non-null rows (the null
rows are only permuted). -/
theorem nullable_getPermutation_partitions
    (nestedPerm nestedPerm2 : Bool → Nat → Int → List Nat)
    (isNull : Nat → Bool) (reverse : Bool) (hint : Int) (limit : Nat) :
    (nestedPerm reverse 0 hint = nestedPerm2 reverse 0 hint →
      nullableGetPermutation nestedPerm isNull reverse limit hint =
        nullableGetPermutation nestedPerm2 isNull reverse limit hint) ∧
    ((decide (hint > 0)) ≠ reverse →
      ∃ nl, nullableGetPermutation nestedPerm isNull reverse 0 hint =
          ((nestedPerm reverse 0 hint).filter fun i => !isNull i) ++ nl ∧
        nl.Perm ((nestedPerm reverse 0 hint).filter fun i => isNull i)) ∧
    ((decide (hint > 0)) = reverse →
      ∃ nl, nullableGetPermutation nestedPerm isNull reverse 0 hint =
          nl ++ ((nestedPerm reverse 0 hint).filter fun i => !isNull i) ∧
        nl.Perm ((nestedPerm reverse 0 hint).filter fun i => isNull i)) := by
  refine ⟨fun h => by simp only [nullableGetPermutation, h], fun hbr => ?_, fun hbr => ?_⟩
  · set res := nestedPerm reverse 0 hint with hres
    simp only [nullableGetPermutation, nullsPartition, ← hres]
    rw [if_pos hbr]
    simp only [if_true]
    set j := npSkip isNull res res.length 0 with hj
    obtain ⟨h1, h2, h3, h4⟩ := npSkip_spec isNull res res.length res.length 0 (by omega)
    rw [← hj] at h1 h2 h3 h4
    by_cases hjl : j < res.length
    · have hx : isNull (res.getD j 0) = true := h4 hjl
      have hdc := decomp_at hjl
      have hA : ∀ a ∈ res.take j, isNull a = false :=
        forall_mem_take_of_getD isNull res j fun i hij => h3 i (by omega) hij
      have hAlen : (res.take j).length = j := by
        simp only [List.length_take]
        omega
      obtain ⟨nl, e1, e2⟩ := npShiftLoop_spec isNull (res.drop (j + 1)) [res.getD j 0]
        (res.take j) res.length res.length
        (by
          rw [hAlen, List.length_drop]
          simp only [List.length_cons, List.length_nil]
          omega)
        (by
          rw [hAlen, List.length_drop]
          simp only [List.length_cons, List.length_nil]
          omega)
        (by simp)
      rw [show res.take j ++ [res.getD j 0] ++ res.drop (j + 1) =
        res.take j ++ res.getD j 0 :: res.drop (j + 1) from by simp, ← hdc] at e1
      rw [show ([res.getD j 0] : List Nat).length = 1 from rfl, hAlen] at e1
      refine ⟨nl, ?_, ?_⟩
      · rw [e1]
        conv_rhs => rw [hdc]
        rw [List.filter_append, List.filter_cons]
        rw [if_neg (by rw [hx]; simp)]
        rw [filter_eq_self_of_forall (fun x => !isNull x) (res.take j)
          (by intro a ha; simp [hA a ha])]
      · refine e2.trans ?_
        conv_rhs => rw [hdc]
        rw [List.filter_append, List.filter_cons]
        rw [if_pos (by rw [hx])]
        rw [filter_eq_nil_of_forall (fun x => isNull x) (res.take j) hA]
        simp
    · have hje : j = res.length := by omega
      have hres_nonnull : ∀ a ∈ res, isNull a = false := by
        intro a ha
        have hz := forall_mem_take_of_getD isNull res j
          (fun i hij => h3 i (by omega) hij) a
        rw [hje, List.take_length] at hz
        exact hz ha
      refine ⟨[], ?_, ?_⟩
      · rw [npShiftLoop]
        rw [if_neg (by omega)]
        rw [filter_eq_self_of_forall (fun i => !isNull i) res
          (by intro a ha; simp [hres_nonnull a ha])]
        simp
      · rw [filter_eq_nil_of_forall (fun i => isNull i) res hres_nonnull]
  · set res := nestedPerm reverse 0 hint with hres
    simp only [nullableGetPermutation, nullsPartition, ← hres]
    rw [if_neg (not_not_intro hbr)]
    set p := npSkipDown isNull res res.length with hp
    obtain ⟨h1, h2, h3⟩ := npSkipDown_spec isNull res res.length
    rw [← hp] at h1 h2 h3
    by_cases hp0 : 0 < p
    · have hx : isNull (res.getD (p - 1) 0) = true := h3 hp0
      have hlt : p - 1 < res.length := by omega
      have hdc := decomp_at hlt
      rw [show p - 1 + 1 = p from by omega] at hdc
      have hA : ∀ a ∈ res.drop p, isNull a = false :=
        forall_mem_drop_of_getD isNull res p fun i hpi hil => h2 i (by omega) hil
      have hClen : (res.take (p - 1)).length = p - 1 := by
        simp only [List.length_take]
        omega
      obtain ⟨nl, e1, e2⟩ := npShiftDownLoop_spec isNull (res.take (p - 1))
        [res.getD (p - 1) 0] (res.drop p) (by simp)
      rw [show res.take (p - 1) ++ [res.getD (p - 1) 0] ++ res.drop p =
        res.take (p - 1) ++ res.getD (p - 1) 0 :: res.drop p from by simp, ← hdc] at e1
      rw [show ([res.getD (p - 1) 0] : List Nat).length = 1 from rfl, hClen] at e1
      rw [show p - 1 + 1 = p from by omega] at e1
      refine ⟨nl, ?_, ?_⟩
      · rw [e1]
        conv_rhs => rw [hdc]
        rw [List.filter_append, List.filter_cons]
        rw [if_neg (by rw [hx]; simp)]
        rw [filter_eq_self_of_forall (fun x => !isNull x) (res.drop p)
          (by intro a ha; simp [hA a ha])]
        simp
      · refine e2.trans ?_
        conv_rhs => rw [hdc]
        rw [List.filter_append, List.filter_cons]
        rw [if_pos (by rw [hx])]
        rw [filter_eq_nil_of_forall (fun x => isNull x) (res.drop p) hA]
    · have hpe : p = 0 := by omega
      have hres_nonnull : ∀ a ∈ res, isNull a = false := by
        intro a ha
        have hz := forall_mem_drop_of_getD isNull res p
          (fun i hpi hil => h2 i (by omega) hil) a
        rw [hpe, List.drop_zero] at hz
        exact hz ha
      refine ⟨[], ?_, ?_⟩
      · rw [hpe]
        rw [show (0 : Nat) - 1 = 0 from rfl]
        rw [show npShiftDownLoop isNull res 0 0 = res from rfl]
        rw [filter_eq_self_of_forall (fun i => !isNull i) res
          (by intro a ha; simp [hres_nonnull a ha])]
        simp
      · rw [filter_eq_nil_of_forall (fun i => isNull i) res hres_nonnull]

/-- C3 witness: the partition applied to a concrete nullable column
(rows 1 and 3 null) for both null directions. -/
theorem nullable_getPermutation_partitions_witness :
    (∃ nl, nullableGetPermutation (fun _ _ _ => [0, 1, 2, 3])
        (fun i => decide (i = 1 ∨ i = 3)) false 0 1 = [0, 2] ++ nl ∧ nl.Perm [1, 3]) ∧
    (∃ nl, nullableGetPermutation (fun _ _ _ => [0, 1, 2, 3])
        (fun i => decide (i = 1 ∨ i = 3)) false 0 (-1) = nl ++ [0, 2] ∧ nl.Perm [1, 3]) := by
  have h1 := (nullable_getPermutation_partitions (fun _ _ _ => [0, 1, 2, 3])
    (fun _ _ _ => [0, 1, 2, 3]) (fun i => decide (i = 1 ∨ i = 3)) false 1 0).2.1 (by decide)
  have h2 := (nullable_getPermutation_partitions (fun _ _ _ => [0, 1, 2, 3])
    (fun _ _ _ => [0, 1, 2, 3]) (fun i => decide (i = 1 ∨ i = 3)) false (-1) 0).2.2 (by decide)
  constructor
  · obtain ⟨nl, e1, e2⟩ := h1
    refine ⟨nl, ?_, ?_⟩
    · rw [show List.filter (fun i => !decide (i = 1 ∨ i = 3)) [0, 1, 2, 3] =
        ([0, 2] : List Nat) from by decide] at e1
      exact e1
    · rw [show List.filter (fun i => decide (i = 1 ∨ i = 3)) [0, 1, 2, 3] =
        ([1, 3] : List Nat) from by decide] at e2
      exact e2
  · obtain ⟨nl, e1, e2⟩ := h2
    refine ⟨nl, ?_, ?_⟩
    · rw [show List.filter (fun i => !decide (i = 1 ∨ i = 3)) [0, 1, 2, 3] =
        ([0, 2] : List Nat) from by decide] at e1
      exact e1
    · rw [show List.filter (fun i => decide (i = 1 ∨ i = 3)) [0, 1, 2, 3] =
        ([1, 3] : List Nat) from by decide] at e2
      exact e2

/-! ## Claim C8 — serialization round trip -/

theorem getD_int_append_add (X W : List Int) (k : Nat) :
    (X ++ W).getD (X.length + k) 0 = W.getD k 0 := by
  induction X with
  | nil => simp
  | cons x xs ih => simpa [Nat.succ_add] using ih

/-- C8: serializing row `n` and deserializing the produced bytes appends
exactly one row equal to row `n` and returns the cursor advanced exactly
past the encoding; the `ColumnNullable` encoding is one null-map byte
followed by the nested encoding only for non-null rows, and the
`ColumnDecimal` encoding is the raw `sizeof(T)` chunk of the value. -/
theorem serde_round_trip (cd d : ColumnDecimal) (c nc : ColumnNullable) (n : Nat)
    (arena : List Int)
    (hc : nc.nested_column.data.length = nc.null_map.length) :
    ((cd.serializeValueIntoArena n arena).1 = arena ++ [cd.data.getD n 0] ∧
     (d.deserializeAndInsertFromArena (cd.serializeValueIntoArena n arena).1
         (cd.serializeValueIntoArena n arena).2.1).1.data =
       d.data ++ [cd.data.getD n 0] ∧
     (d.deserializeAndInsertFromArena (cd.serializeValueIntoArena n arena).1
         (cd.serializeValueIntoArena n arena).2.1).2 =
       (cd.serializeValueIntoArena n arena).2.1 + (cd.serializeValueIntoArena n arena).2.2) ∧
    ((c.serializeValueIntoArena n arena).1 =
       arena ++ [((c.null_map.getD n 0 : Nat) : Int)] ++
         (if c.null_map.getD n 0 = 0 then [c.nested_column.data.getD n 0] else []) ∧
     (c.serializeValueIntoArena n arena).2.1 = arena.length ∧
     (c.serializeValueIntoArena n arena).2.2 =
       (if c.null_map.getD n 0 = 0 then 2 else 1)) ∧
    ((nc.deserializeAndInsertFromArena (c.serializeValueIntoArena n arena).1
        (c.serializeValueIntoArena n arena).2.1).2 =
       (c.serializeValueIntoArena n arena).2.1 + (c.serializeValueIntoArena n arena).2.2 ∧
     (nc.deserializeAndInsertFromArena (c.serializeValueIntoArena n arena).1
        (c.serializeValueIntoArena n arena).2.1).1.size = nc.size + 1 ∧
     (nc.deserializeAndInsertFromArena (c.serializeValueIntoArena n arena).1
        (c.serializeValueIntoArena n arena).2.1).1.opIndex nc.size = c.opIndex n) := by
  have hdec : ∀ (ar : List ℤ) (v : ℤ) (dd : ColumnDecimal),
      dd.deserializeAndInsertFromArena (ar ++ [v]) ar.length =
        ({ data := dd.data ++ [v], scale := dd.scale }, ar.length + 1) := by
    intro ar v dd
    simp only [ColumnDecimal.deserializeAndInsertFromArena, getD_int_at_append]
  have hN1 : ∀ (m : ColumnNullable) (ar : List ℤ) (w : ℤ),
      m.deserializeAndInsertFromArena (ar ++ ((0 : ℤ) :: [w])) ar.length =
        (⟨⟨m.nested_column.data ++ [w], m.nested_column.scale⟩, m.null_map ++ [0]⟩,
          ar.length + 2) := by
    intro m ar w
    have hw : (ar ++ ((0 : ℤ) :: [w])).getD (ar.length + 1) 0 = w := by
      simpa using getD_int_append_add ar ((0 : ℤ) :: [w]) 1
    simp only [ColumnNullable.deserializeAndInsertFromArena, getD_int_at_append,
      Int.toNat_zero, if_true, ColumnDecimal.deserializeAndInsertFromArena, hw]
  have hN2 : ∀ (m : ColumnNullable) (ar : List ℤ) (v : Nat), v ≠ 0 →
      m.deserializeAndInsertFromArena (ar ++ [((v : Nat) : ℤ)]) ar.length =
        (⟨m.nested_column.insertDefault, m.null_map ++ [v]⟩, ar.length + 1) := by
    intro m ar v hv
    simp only [ColumnNullable.deserializeAndInsertFromArena, getD_int_at_append,
      Int.toNat_natCast]
    rw [if_neg hv]
  refine ⟨⟨rfl, ?_, ?_⟩, ?_⟩
  · rw [show (cd.serializeValueIntoArena n arena).1 = arena ++ [cd.data.getD n 0] from rfl,
      show (cd.serializeValueIntoArena n arena).2.1 = arena.length from rfl, hdec]
  · rw [show (cd.serializeValueIntoArena n arena).1 = arena ++ [cd.data.getD n 0] from rfl,
      show (cd.serializeValueIntoArena n arena).2.1 = arena.length from rfl, hdec]
    rfl
  by_cases h0 : c.null_map.getD n 0 = 0
  · have hser : c.serializeValueIntoArena n arena =
        (arena ++ ((0 : ℤ) :: [c.nested_column.data.getD n 0]), (arena.length, 2)) := by
      simp only [ColumnNullable.serializeValueIntoArena, ColumnDecimal.serializeValueIntoArena]
      rw [h0]
      simp
    refine ⟨⟨?_, ?_, ?_⟩, ?_, ?_, ?_⟩
    · rw [hser, h0]; simp
    · rw [hser]
    · rw [hser, h0]; simp
    · rw [hser]
      show (nc.deserializeAndInsertFromArena
        (arena ++ ((0 : ℤ) :: [c.nested_column.data.getD n 0])) arena.length).2 =
          arena.length + 2
      rw [hN1]
    · rw [hser]
      show (nc.deserializeAndInsertFromArena
        (arena ++ ((0 : ℤ) :: [c.nested_column.data.getD n 0])) arena.length).1.size =
          nc.size + 1
      rw [hN1]
      simp [ColumnNullable.size]
    · rw [hser]
      show (nc.deserializeAndInsertFromArena
        (arena ++ ((0 : ℤ) :: [c.nested_column.data.getD n 0])) arena.length).1.opIndex
          nc.size = c.opIndex n
      rw [hN1]
      simp only [ColumnNullable.opIndex, ColumnNullable.isNullAt, ColumnNullable.size]
      have hnm : (nc.null_map ++ [0]).getD nc.null_map.length 0 = 0 := getD_at_append _ _ _
      have hval2 : (nc.nested_column.data ++ [c.nested_column.data.getD n 0]).getD
          nc.null_map.length 0 = c.nested_column.data.getD n 0 := by
        rw [← hc]; exact getD_int_at_append _ _ _
      simp only [hnm, hval2, h0]
  · have hser : c.serializeValueIntoArena n arena =
        (arena ++ [((c.null_map.getD n 0 : Nat) : ℤ)], (arena.length, 1)) := by
      simp only [ColumnNullable.serializeValueIntoArena]
      rw [if_pos h0]
    refine ⟨⟨?_, ?_, ?_⟩, ?_, ?_, ?_⟩
    · rw [hser]
      rw [if_neg h0]
      simp
    · rw [hser]
    · rw [hser]
      rw [if_neg h0]
    · rw [hser]
      show (nc.deserializeAndInsertFromArena
        (arena ++ [((c.null_map.getD n 0 : Nat) : ℤ)]) arena.length).2 = arena.length + 1
      rw [hN2 nc arena _ h0]
    · rw [hser]
      show (nc.deserializeAndInsertFromArena
        (arena ++ [((c.null_map.getD n 0 : Nat) : ℤ)]) arena.length).1.size = nc.size + 1
      rw [hN2 nc arena _ h0]
      simp [ColumnNullable.size]
    · rw [hser]
      show (nc.deserializeAndInsertFromArena
        (arena ++ [((c.null_map.getD n 0 : Nat) : ℤ)]) arena.length).1.opIndex nc.size =
          c.opIndex n
      rw [hN2 nc arena _ h0]
      simp only [ColumnNullable.opIndex, ColumnNullable.isNullAt, ColumnNullable.size]
      have hnm : (nc.null_map ++ [c.null_map.getD n 0]).getD nc.null_map.length 0 =
          c.null_map.getD n 0 := getD_at_append _ _ _
      simp only [hnm]
      rw [if_pos (decide_eq_true h0), if_pos (decide_eq_true h0)]

/-- C8 witness: the round trip applied to concrete decimal and nullable
columns (one null row, one non-null row). -/
theorem serde_round_trip_witness :
    (ColumnNullable.deserializeAndInsertFromArena
        { nested_column := { data := [5], scale := 0 }, null_map := [0] }
        (ColumnNullable.serializeValueIntoArena
          { nested_column := { data := [31, 7], scale := 0 }, null_map := [0, 1] } 0 []).1
        0).1.opIndex 1 =
      ColumnNullable.opIndex
        { nested_column := { data := [31, 7], scale := 0 }, null_map := [0, 1] } 0 := by
  have h := serde_round_trip { data := [31], scale := 0 } { data := [], scale := 0 }
    { nested_column := { data := [31, 7], scale := 0 }, null_map := [0, 1] }
    { nested_column := { data := [5], scale := 0 }, null_map := [0] } 0 [] (by decide)
  exact h.2.2.2.2

/-! ## Claim C7 — aggregate null adapter -/

/-- C7: `AggregateFunctionNullUnary::add` leaves the state untouched on a
null row and otherwise sets the flag and forwards the nested column row to
the nested add; with `result_is_nullable = true`, `insertResultInto` appends
a null row when the flag was never set and otherwise the nested result
tagged non-null; wrapping count over `[1, null, 3]` counts exactly the two
non-null rows, and an all-null input emits a null row. -/
theorem agg_null_unary_contract {σ : Type} (b : Bool) (f : σ → ColumnDecimal → Nat → σ)
    (g : σ → ColumnDecimal → ColumnDecimal) (st st2 : AggNullState σ)
    (col : ColumnNullable) (row : Nat) (tgt : ColumnNullable) :
    (col.isNullAt row = true → aggNullUnaryAdd b f st col row = st) ∧
    (col.isNullAt row = false →
      aggNullUnaryAdd b f st col row =
        { flag := if b then true else st.flag,
          nested := f st.nested col.nested_column row }) ∧
    (aggNullGetFlag true st2 = false →
      aggNullInsertResultInto g st2 tgt = tgt.insertDefault ∧
      tgt.insertDefault.null_map = tgt.null_map ++ [1] ∧
      tgt.insertDefault.nested_column.data = tgt.nested_column.data ++ [0]) ∧
    (aggNullGetFlag true st2 = true →
      aggNullInsertResultInto g st2 tgt =
        { nested_column := g st2.nested tgt.nested_column,
          null_map := tgt.null_map ++ [0] }) ∧
    ((addBatchSinglePlace 3
        (fun s i => aggNullUnaryAdd true countAdd s
          { nested_column := { data := [1, 5, 3], scale := 0 }, null_map := [0, 1, 0] } i)
        (aggNullCreate 0)).nested = 2 ∧
     (addBatchSinglePlace 3
        (fun s i => aggNullUnaryAdd true countAdd s
          { nested_column := { data := [1, 5, 3], scale := 0 }, null_map := [0, 1, 0] } i)
        (aggNullCreate 0)).nested =
       addBatchSinglePlace 2 (fun s i => countAdd s { data := [1, 3], scale := 0 } i) 0) ∧
    (aggNullInsertResultInto countInsertResultInto
        (addBatchSinglePlace 3
          (fun s i => aggNullUnaryAdd true countAdd s
            { nested_column := { data := [7, 8, 9], scale := 0 }, null_map := [1, 1, 1] } i)
          (aggNullCreate 0)) tgt = tgt.insertDefault) := by
  refine ⟨fun h => ?_, fun h => ?_, fun h => ?_, fun h => ?_, ⟨by decide, by decide⟩, ?_⟩
  · simp [aggNullUnaryAdd, h]
  · simp [aggNullUnaryAdd, h]
  · have hf : st2.flag = false := by simpa [aggNullGetFlag] using h
    exact ⟨by simp [aggNullInsertResultInto, aggNullGetFlag, hf], rfl, rfl⟩
  · have hf : st2.flag = true := by simpa [aggNullGetFlag] using h
    simp [aggNullInsertResultInto, aggNullGetFlag, hf]
  · have hst : addBatchSinglePlace 3
        (fun s i => aggNullUnaryAdd true countAdd s
          { nested_column := { data := [7, 8, 9], scale := 0 }, null_map := [1, 1, 1] } i)
        (aggNullCreate 0) = aggNullCreate 0 := by decide
    rw [hst]
    simp [aggNullInsertResultInto, aggNullGetFlag, aggNullCreate]

/-- C7 witness: the contract applied at a concrete state, column and
target. -/
theorem agg_null_unary_contract_witness :
    aggNullUnaryAdd true countAdd (aggNullCreate 0)
      { nested_column := { data := [1, 5, 3], scale := 0 }, null_map := [0, 1, 0] } 1 =
      aggNullCreate 0 ∧
    aggNullInsertResultInto countInsertResultInto (aggNullCreate 0)
      { nested_column := { data := [], scale := 0 }, null_map := [] } =
      ColumnNullable.insertDefault
        { nested_column := { data := [], scale := 0 }, null_map := [] } := by
  have h := agg_null_unary_contract true countAdd countInsertResultInto
    (aggNullCreate (0 : Nat)) (aggNullCreate (0 : Nat))
    { nested_column := { data := [1, 5, 3], scale := 0 }, null_map := [0, 1, 0] } 1
    { nested_column := { data := [], scale := 0 }, null_map := [] }
  exact ⟨h.1 (by decide), (h.2.2.1 (by decide)).1⟩

/-- C10 witness: the amended theorem applied at a concrete column and
encoding with null byte 2. -/
theorem nullable_null_rows_extend_nested_witness :
    (ColumnNullable.deserializeAndInsertFromArena
        { nested_column := { data := [9], scale := 0 }, null_map := [0] } [2] 0).1.nested_column.data
      = [9, 0] ∧
    (ColumnNullable.deserializeAndInsertFromArena
        { nested_column := { data := [9], scale := 0 }, null_map := [0] } [2] 0).1.null_map
      = [0, 2] := by
  have h := (nullable_null_rows_extend_nested
    { nested_column := { data := [9], scale := 0 }, null_map := [0] } [2] 0).2.2 (by decide)
  exact ⟨h.1, h.2⟩

/-! ## HashTable

Model of `HashTable<Key, HashTableCell<Key>, Hash, HashTableGrower<d>,
HashTableAllocator>` (src/vec/common/hash_table/hash_table.h).  Keys are
`Nat`; per `ZeroTraits`, key 0 is the empty-bucket sentinel, stored
out of band in the `ZeroValueStorage`.  The hash function `h` is a
parameter.  The unbounded probe loops (`findCell`, the wrap-around tail of
`resize`) are given fuel equal to the buffer size; the C++ relies on the
buffer never being full, which the well-formedness invariant proved below
guarantees, and the allocator zero-fills fresh memory. -/

/-- `HashTableGrower::bufSize` (hash_table.h line 239). -/
def growerBufSize (d : Nat) : Nat := 2 ^ d

/-- `HashTableGrower::maxFill` (line 241). -/
def growerMaxFill (d : Nat) : Nat := 2 ^ (d - 1)

/-- `HashTableGrower::place` (line 245): `x & mask`, i.e. `x mod 2^d`. -/
def growerPlace (d : Nat) (x : Nat) : Nat := x % 2 ^ d

/-- `HashTableGrower::next` (line 248): `(pos + 1) & mask`. -/
def growerNext (d : Nat) (pos : Nat) : Nat := (pos + 1) % 2 ^ d

/-- `HashTableGrower::overflow` (line 251). -/
def growerOverflow (d : Nat) (elems : Nat) : Bool := elems > growerMaxFill d

/-- `HashTableGrower::increaseSize` (lines 254-257). -/
def growerIncreaseSize (d : Nat) : Nat := d + (if d ≥ 23 then 1 else 2)

structure HashTable where
  sizeDegree : Nat
  buf : List Nat
  hasZero : Bool
  m_size : Nat
  deriving DecidableEq, Repr

/-- `HashTable::findCell` (lines 374-385): probe from `pos` along the
collision chain until an empty cell or a cell with the key is found. -/
def findCell (buf : List Nat) (d : Nat) (x : Nat) : Nat → Nat → Nat
  | 0, pos => pos
  | fuel + 1, pos =>
    if buf.getD pos 0 = 0 ∨ buf.getD pos 0 = x then pos
    else findCell buf d x fuel (growerNext d pos)

/-- `HashTable::reinsert` (lines 485-506): move a cell to its place for the
new mask unless it already sits on its (still intact) chain. -/
def reinsert (h : Nat → Nat) (d : Nat) (buf : List Nat) (i : Nat) : List Nat :=
  let x := buf.getD i 0
  let place_value := growerPlace d (h x)
  if i = place_value then buf
  else
    let q := findCell buf d x buf.length place_value
    if buf.getD q 0 ≠ 0 then buf
    else (buf.set q x).set i 0

/-- First pass of `HashTable::resize` (lines 457-460): reinsert every
occupied cell of the old buffer in index order. -/
def rehashMain (h : Nat → Nat) (d : Nat) : List Nat → Nat → Nat → List Nat
  | buf, _, 0 => buf
  | buf, i, count + 1 =>
    rehashMain h d (if buf.getD i 0 ≠ 0 then reinsert h d buf i else buf) (i + 1) count

/-- Wrap-around tail pass of `HashTable::resize` (lines 462-471): continue
reinserting from `old_size` while cells are occupied. -/
def rehashTail (h : Nat → Nat) (d : Nat) : List Nat → Nat → Nat → List Nat
  | buf, _, 0 => buf
  | buf, i, fuel + 1 =>
    if buf.getD i 0 = 0 then buf
    else rehashTail h d (reinsert h d buf i) (i + 1) fuel

/-- `HashTable::resize` (lines 419-479) for the growth case used by
`emplace`: bump the grower degree, extend the buffer (the hash table
allocator zero-fills fresh memory), then run the two reinsert passes. -/
def HashTable.resize (h : Nat → Nat) (t : HashTable) : HashTable :=
  let old_size := growerBufSize t.sizeDegree
  let newDeg := growerIncreaseSize t.sizeDegree
  let buf1 := t.buf ++ List.replicate (growerBufSize newDeg - old_size) 0
  let buf2 := rehashMain h newDeg buf1 0 old_size
  let buf3 := rehashTail h newDeg buf2 old_size buf1.length
  { t with sizeDegree := newDeg, buf := buf3 }

/-- `HashTable::emplaceIfZero` (lines 748-772); `none` means the key is not
zero and the non-zero path must run. -/
def emplaceIfZero (t : HashTable) (x : Nat) : Option (HashTable × Bool) :=
  if x = 0 then
    if ¬ t.hasZero then
      some ({ t with hasZero := true, m_size := t.m_size + 1 }, true)
    else some (t, false)
  else none

/-- `HashTable::emplaceNonZeroImpl` (lines 774-817).  `allocOk` models
whether the allocator call inside `resize` succeeds; on failure the
just-inserted cell is zeroed and the count decremented before the exception
(the `Except.error` state) propagates. -/
def emplaceNonZeroImpl (h : Nat → Nat) (allocOk : Bool) (t : HashTable)
    (place_value : Nat) (x : Nat) : Except HashTable (HashTable × Bool) :=
  if t.buf.getD place_value 0 ≠ 0 then Except.ok (t, false)
  else
    let t1 : HashTable := { t with buf := t.buf.set place_value x, m_size := t.m_size + 1 }
    if growerOverflow t1.sizeDegree t1.m_size then
      if allocOk then Except.ok (t1.resize h, true)
      else Except.error { t1 with m_size := t1.m_size - 1, buf := t1.buf.set place_value 0 }
    else Except.ok (t1, true)

/-- `HashTable::emplaceNonZero` (lines 820-827). -/
def emplaceNonZero (h : Nat → Nat) (allocOk : Bool) (t : HashTable) (x : Nat) :
    Except HashTable (HashTable × Bool) :=
  emplaceNonZeroImpl h allocOk t
    (findCell t.buf t.sizeDegree x t.buf.length (growerPlace t.sizeDegree (h x))) x

/-- `HashTable::emplace` (lines 879-886). -/
def HashTable.emplace (h : Nat → Nat) (allocOk : Bool) (t : HashTable) (x : Nat) :
    Except HashTable (HashTable × Bool) :=
  match emplaceIfZero t x with
  | some r => Except.ok r
  | none => emplaceNonZero h allocOk t x

/-- `HashTable::find` (lines 900-908): the zero key consults the zero slot;
otherwise probe; a non-empty stop cell is a hit.  Returns the found cell's
key. -/
def HashTable.find (h : Nat → Nat) (t : HashTable) (x : Nat) : Option Nat :=
  if x = 0 then (if t.hasZero then some 0 else none)
  else
    let place := findCell t.buf t.sizeDegree x t.buf.length (growerPlace t.sizeDegree (h x))
    if t.buf.getD place 0 ≠ 0 then some (t.buf.getD place 0) else none

/-- `HashTable::size` (lines 1029-1032). -/
def HashTable.size (t : HashTable) : Nat := t.m_size

/-- The `HashTable()` constructor (lines 592-597) with
`HashTableGrower<d0>`: an all-empty buffer of `2^d0` cells. -/
def hashTableInit (d0 : Nat) : HashTable :=
  { sizeDegree := d0, buf := List.replicate (2 ^ d0) 0, hasZero := false, m_size := 0 }

/-- A sequence of `emplace` calls with a working allocator. -/
def emplaceRun (h : Nat → Nat) (d0 : Nat) (ks : List Nat) : HashTable :=
  ks.foldl (fun t k =>
    match HashTable.emplace h true t k with
    | Except.ok r => r.1
    | Except.error t2 => t2) (hashTableInit d0)

theorem set_zero_eq_self_of_getD (l : List Nat) (p : Nat) (h : l.getD p 0 = 0) :
    l.set p 0 = l := by
  induction l generalizing p with
  | nil => rfl
  | cons x xs ih =>
    cases p with
    | zero => simp at h; simp [h]
    | succ q => simpa using ih q (by simpa using h)

/-! ## Claim C6 — failed resize rolls the emplace back -/

/-- C6: if the resize triggered by an emplace that just inserted a new
non-zero key fails, the just-inserted cell is zeroed and the element count
decremented before the error propagates, so the propagated table state is
exactly the state before that emplace. -/
theorem emplace_failed_resize_rollback (h : Nat → Nat) (t : HashTable) (x : Nat)
    (t2 : HashTable) (he : HashTable.emplace h false t x = Except.error t2) : t2 = t := by
  unfold HashTable.emplace at he
  unfold emplaceIfZero at he
  by_cases hx : x = 0
  · rw [if_pos hx] at he
    by_cases hz : t.hasZero
    · simp [hz] at he
    · simp [hz] at he
  · rw [if_neg hx] at he
    simp only [emplaceNonZero, emplaceNonZeroImpl] at he
    set place := findCell t.buf t.sizeDegree x t.buf.length
      (growerPlace t.sizeDegree (h x)) with hplace
    by_cases hocc : t.buf.getD place 0 ≠ 0
    · rw [if_pos hocc] at he
      cases he
    · rw [if_neg hocc] at he
      by_cases hov : growerOverflow t.sizeDegree (t.m_size + 1) = true
      · rw [if_pos hov] at he
        rw [if_neg (by simp)] at he
        cases he
        have hg : t.buf.getD place 0 = 0 := not_not.mp hocc
        have hbuf : (t.buf.set place x).set place 0 = t.buf := by
          rw [List.set_set]
          exact set_zero_eq_self_of_getD _ _ hg
        rw [hbuf]
        cases t
        simp
      · rw [if_neg (by simpa using hov)] at he
        cases he

/-- C6 witness: the rollback at a concrete table (4 buckets, 2 elements)
whose next non-zero insert overflows while the allocator fails. -/
theorem emplace_failed_resize_rollback_witness :
    HashTable.emplace (fun x => x) false
        { sizeDegree := 2, buf := [0, 1, 2, 0], hasZero := false, m_size := 2 } 3 =
      Except.error
        { sizeDegree := 2, buf := [0, 1, 2, 0], hasZero := false, m_size := 2 } := by
  obtain ⟨t2, ht⟩ : ∃ t2, HashTable.emplace (fun x => x) false
      { sizeDegree := 2, buf := [0, 1, 2, 0], hasZero := false, m_size := 2 } 3 =
      Except.error t2 := ⟨_, rfl⟩
  rw [ht, emplace_failed_resize_rollback (fun x => x)
    { sizeDegree := 2, buf := [0, 1, 2, 0], hasZero := false, m_size := 2 } 3 t2 ht]

/-! ## Claim C1 — hash table invariants: findCell walk characterisation

The probe walk of `findCell` advances by `grower.next` (successor mod
`2^d`) until it meets a stop: an empty cell or a cell holding the probed
key.  The lemmas below characterise the walk as a linear scan over the
interval `[s, q)` (possibly wrapping once past `2^d - 1`) whose interior
contains no stop. -/

def keyAt (buf : List Nat) (p : Nat) : Nat := buf.getD p 0

/-- A probe stop for key `x` at position `p`: an empty cell or a cell
holding `x` (the loop condition of `HashTable::findCell`, lines 376-378). -/
abbrev IsStop (buf : List Nat) (x p : Nat) : Prop :=
  buf.getD p 0 = 0 ∨ buf.getD p 0 = x

/-- No probe stop for `x` anywhere in `[a, b)`. -/
def CleanSeg (buf : List Nat) (x a b : Nat) : Prop :=
  ∀ p, a ≤ p → p < b → ¬ IsStop buf x p

theorem findCell_stop {buf : List Nat} {d x pos : Nat} (fuel : Nat)
    (h : IsStop buf x pos) : findCell buf d x (fuel + 1) pos = pos := by
  simp only [findCell]
  rw [if_pos h]

theorem findCell_advance {buf : List Nat} {d x pos : Nat} (fuel : Nat)
    (h : ¬ IsStop buf x pos) :
    findCell buf d x (fuel + 1) pos = findCell buf d x fuel (growerNext d pos) := by
  simp only [findCell]
  rw [if_neg h]

theorem findCell_clean_lin {buf : List Nat} {d x : Nat} :
    ∀ fuel s e, s ≤ e → e < 2 ^ d → CleanSeg buf x s e → IsStop buf x e →
      e - s < fuel → findCell buf d x fuel s = e := by
  intro fuel
  induction fuel with
  | zero => intro s e _ _ _ _ hf; omega
  | succ n ih =>
    intro s e hse he hclean hstop hf
    by_cases hs : s = e
    · subst hs
      exact findCell_stop n hstop
    · have hlt : s < e := lt_of_le_of_ne hse hs
      have hns : ¬ IsStop buf x s := hclean s le_rfl hlt
      rw [findCell_advance n hns]
      have hnext : growerNext d s = s + 1 := by
        unfold growerNext
        exact Nat.mod_eq_of_lt (by omega)
      rw [hnext]
      exact ih (s + 1) e hlt he (fun p hp1 hp2 => hclean p (by omega) hp2) hstop (by omega)

theorem findCell_clean_wrap {buf : List Nat} {d x : Nat} :
    ∀ fuel s, s < 2 ^ d → CleanSeg buf x s (2 ^ d) → 2 ^ d - s ≤ fuel →
      findCell buf d x fuel s = findCell buf d x (fuel - (2 ^ d - s)) 0 := by
  intro fuel
  induction fuel with
  | zero => intro s hs _ hf; omega
  | succ n ih =>
    intro s hs hclean hf
    have hns : ¬ IsStop buf x s := hclean s le_rfl hs
    rw [findCell_advance n hns]
    by_cases hlast : s + 1 = 2 ^ d
    · have hnext : growerNext d s = 0 := by
        unfold growerNext
        rw [hlast]
        exact Nat.mod_self _
      rw [hnext]
      have h1 : 2 ^ d - s = 1 := by omega
      rw [h1]
      norm_num
    · have hnext : growerNext d s = s + 1 := by
        unfold growerNext
        exact Nat.mod_eq_of_lt (by omega)
      rw [hnext]
      rw [ih (s + 1) (by omega) (fun p hp1 hp2 => hclean p (by omega) hp2) (by omega)]
      congr 1
      omega

theorem findCell_char_lin (buf : List Nat) (d x : Nat) :
    ∀ fuel s e, s ≤ e → e < 2 ^ d → IsStop buf x e → e - s < fuel →
      IsStop buf x (findCell buf d x fuel s) ∧
        s ≤ findCell buf d x fuel s ∧
        findCell buf d x fuel s ≤ e ∧
        CleanSeg buf x s (findCell buf d x fuel s) := by
  intro fuel
  induction fuel with
  | zero => intro s e _ _ _ hf; omega
  | succ n ih =>
    intro s e hse he hstop hf
    by_cases hss : IsStop buf x s
    · rw [findCell_stop n hss]
      exact ⟨hss, le_rfl, hse, fun p hp1 hp2 => absurd hp1 (by omega)⟩
    · have hne : s ≠ e := fun hq => hss (hq ▸ hstop)
      have hlt : s < e := lt_of_le_of_ne hse hne
      rw [findCell_advance n hss]
      have hnext : growerNext d s = s + 1 := by
        unfold growerNext
        exact Nat.mod_eq_of_lt (by omega)
      rw [hnext]
      obtain ⟨a, b, c, cl⟩ := ih (s + 1) e hlt he hstop (by omega)
      refine ⟨a, by omega, c, ?_⟩
      intro p hp1 hp2
      by_cases hps : p = s
      · subst hps
        exact hss
      · exact cl p (by omega) hp2

theorem findCell_char (buf : List Nat) (d x : Nat) (s e0 : Nat)
    (hs : s < 2 ^ d) (he0 : e0 < 2 ^ d) (hstop0 : IsStop buf x e0) :
    IsStop buf x (findCell buf d x (2 ^ d) s) ∧
      findCell buf d x (2 ^ d) s < 2 ^ d ∧
      ((s ≤ findCell buf d x (2 ^ d) s ∧
          CleanSeg buf x s (findCell buf d x (2 ^ d) s)) ∨
        (findCell buf d x (2 ^ d) s < s ∧ CleanSeg buf x s (2 ^ d) ∧
          CleanSeg buf x 0 (findCell buf d x (2 ^ d) s))) := by
  by_cases hE : ∃ e, s ≤ e ∧ e < 2 ^ d ∧ IsStop buf x e
  · obtain ⟨e, hse, he, hstop⟩ := hE
    obtain ⟨a, b, c, cl⟩ := findCell_char_lin buf d x (2 ^ d) s e hse he hstop (by omega)
    exact ⟨a, by omega, Or.inl ⟨b, cl⟩⟩
  · push_neg at hE
    have hclean : CleanSeg buf x s (2 ^ d) := fun p hp1 hp2 => hE p hp1 hp2
    have he0s : e0 < s := by
      by_contra hcon
      exact hE e0 (by omega) he0 hstop0
    rw [findCell_clean_wrap (2 ^ d) s hs hclean (by omega)]
    have hfe : 2 ^ d - (2 ^ d - s) = s := by omega
    rw [hfe]
    obtain ⟨a, b, c, cl⟩ := findCell_char_lin buf d x s 0 e0 (by omega) he0 hstop0 (by omega)
    exact ⟨a, by omega, Or.inr ⟨by omega, hclean, cl⟩⟩

theorem findCell_lt {buf : List Nat} {d x : Nat} :
    ∀ fuel s, s < 2 ^ d → findCell buf d x fuel s < 2 ^ d := by
  intro fuel
  induction fuel with
  | zero =>
    intro s hs
    simpa only [findCell] using hs
  | succ n ih =>
    intro s hs
    by_cases h : IsStop buf x s
    · rw [findCell_stop n h]
      exact hs
    · rw [findCell_advance n h]
      exact ih _ (Nat.mod_lt _ (Nat.pos_pow_of_pos d (by norm_num)))

theorem findCell_eq_lin {buf : List Nat} {d x s e : Nat} (hse : s ≤ e) (he : e < 2 ^ d)
    (hclean : CleanSeg buf x s e) (hstop : IsStop buf x e) :
    findCell buf d x (2 ^ d) s = e :=
  findCell_clean_lin (2 ^ d) s e hse he hclean hstop (by omega)

theorem findCell_eq_wrap {buf : List Nat} {d x s e : Nat} (hes : e < s) (hs : s < 2 ^ d)
    (hclean1 : CleanSeg buf x s (2 ^ d)) (hclean2 : CleanSeg buf x 0 e)
    (hstop : IsStop buf x e) :
    findCell buf d x (2 ^ d) s = e := by
  rw [findCell_clean_wrap (2 ^ d) s hs hclean1 (by omega)]
  have hfe : 2 ^ d - (2 ^ d - s) = s := by omega
  rw [hfe]
  exact findCell_clean_lin s 0 e (by omega) (by omega) hclean2 hstop (by omega)

theorem lt_length_of_keyAt_ne {buf : List Nat} {p : Nat} (h : buf.getD p 0 ≠ 0) :
    p < buf.length := by
  by_contra hc
  exact h (List.getD_eq_default _ _ (by omega))

/-! Occupancy counting and single-cell surgery on buffers. -/

/-- Number of occupied (non-zero) cells of a buffer. -/
def occnz (buf : List Nat) : Nat := buf.countP (fun c => decide (c ≠ 0))

theorem getD_set_self (l : List Nat) (p a : Nat) (h : p < l.length) :
    (l.set p a).getD p 0 = a := by
  induction l generalizing p with
  | nil => simp at h
  | cons x xs ih =>
    cases p with
    | zero => rfl
    | succ n => simpa using ih n (by simpa using h)

theorem getD_set_ne (l : List Nat) (p r a : Nat) (h : r ≠ p) :
    (l.set p a).getD r 0 = l.getD r 0 := by
  induction l generalizing p r with
  | nil => rfl
  | cons x xs ih =>
    cases p with
    | zero =>
      cases r with
      | zero => exact absurd rfl h
      | succ m => rfl
    | succ q =>
      cases r with
      | zero => rfl
      | succ m => simpa using ih q m (fun hq => h (by omega))

theorem countP_surgery (P : Nat → Bool) (T D : List Nat) (m a : Nat) :
    ((T ++ m :: D).set T.length a).countP P + (if P m then 1 else 0) =
      (T ++ m :: D).countP P + (if P a then 1 else 0) := by
  rw [set_at_append]
  simp only [List.countP_append, List.countP_cons]
  split_ifs <;> omega

theorem countP_set (P : Nat → Bool) (l : List Nat) (p a : Nat) (h : p < l.length) :
    (l.set p a).countP P + (if P (l.getD p 0) then 1 else 0) =
      l.countP P + (if P a then 1 else 0) := by
  have hTlen : (l.take p).length = p := by
    rw [List.length_take]
    omega
  have hs := countP_surgery P (l.take p) (l.drop (p + 1)) (l.getD p 0) a
  rw [hTlen, ← decomp_at h] at hs
  exact hs

theorem count_set (l : List Nat) (p v a : Nat) (h : p < l.length) :
    (l.set p a).count v + (if l.getD p 0 = v then 1 else 0) =
      l.count v + (if a = v then 1 else 0) := by
  have hs := countP_set (fun c => c == v) l p a h
  simpa using hs

/-- Moving the key `x` from cell `i` to the empty cell `q` permutes the
buffer (the two cells swap their contents). -/
theorem perm_move (buf : List Nat) (q i x : Nat) (hq : q < buf.length)
    (hi : i < buf.length) (hqi : q ≠ i) (hq0 : buf.getD q 0 = 0)
    (hix : buf.getD i 0 = x) :
    ((buf.set q x).set i 0).Perm buf := by
  refine List.perm_iff_count.mpr ?_
  intro v
  have h1 := count_set buf q v x hq
  have h2 := count_set (buf.set q x) i v 0 (by simpa using hi)
  rw [getD_set_ne buf q i x (fun hh => hqi hh.symm), hix] at h2
  rw [hq0] at h1
  split_ifs at h1 h2 <;> omega

theorem nz_seg_le_occ (buf : List Nat) (a b : Nat) (hb : b ≤ buf.length)
    (h : ∀ p, a ≤ p → p < b → buf.getD p 0 ≠ 0) : b - a ≤ occnz buf := by
  by_cases hab : a < b
  · have hseg : ((buf.drop a).take (b - a)).length = b - a := by
      rw [List.length_take, List.length_drop]
      omega
    have hall : ∀ y ∈ (buf.drop a).take (b - a), (fun c => decide (c ≠ 0)) y = true := by
      intro y hy
      obtain ⟨j, hj, hyj⟩ := List.mem_iff_getElem.mp hy
      have hj2 : j < b - a := by
        rw [hseg] at hj
        exact hj
      have hjd : a + j < buf.length := by omega
      have hval : ((buf.drop a).take (b - a))[j] = buf.getD (a + j) 0 := by
        rw [List.getElem_take, List.getElem_drop]
        rw [List.getD_eq_getElem?_getD, List.getElem?_eq_getElem hjd]
        rfl
      rw [hval] at hyj
      simp only [decide_eq_true_eq]
      rw [← hyj]
      exact h (a + j) (by omega) (by omega)
    have hcount : ((buf.drop a).take (b - a)).countP (fun c => decide (c ≠ 0)) = b - a := by
      rw [List.countP_eq_length.mpr hall]
      exact hseg
    have hsub : List.Sublist ((buf.drop a).take (b - a)) buf :=
      (List.take_sublist _ _).trans (List.drop_sublist _ _)
    have := hsub.countP_le (fun c => decide (c ≠ 0))
    rw [hcount] at this
    exact this
  · omega

theorem exists_zero_of_occ_lt (buf : List Nat) (h : occnz buf < buf.length) :
    ∃ p, p < buf.length ∧ buf.getD p 0 = 0 := by
  by_contra hc
  push_neg at hc
  have := nz_seg_le_occ buf 0 buf.length le_rfl
    (fun p _ hp2 => hc p hp2)
  omega

theorem getD_mem_of_lt (l : List Nat) (k : Nat) (h : k < l.length) :
    l.getD k 0 ∈ l := by
  rw [List.getD_eq_getElem?_getD, List.getElem?_eq_getElem h]
  exact List.getElem_mem h

/-- Two occupied cells holding the same key coincide when the non-zero
cells are pairwise distinct. -/
theorem getD_inj_aux (buf : List Nat)
    (hnd : (buf.filter (fun c => decide (c ≠ 0))).Nodup) (p q : Nat)
    (hpq : p < q) (hq : q < buf.length) (hv : buf.getD p 0 = buf.getD q 0)
    (hnz : buf.getD p 0 ≠ 0) : False := by
  have hp : p < buf.length := by omega
  have hd := decomp_at hp
  have hTlen : (buf.take p).length = p := by
    rw [List.length_take]
    omega
  have hqval : (buf.drop (p + 1)).getD (q - (p + 1)) 0 = buf.getD q 0 := by
    conv_rhs => rw [hd]
    have : q = (buf.take p).length + (q - p) := by omega
    rw [this, getD_append_add]
    have : q - p = (q - p - 1) + 1 := by omega
    rw [this]
    simp only [List.getD_cons_succ]
    congr 1
    omega
  have hmem : buf.getD p 0 ∈ buf.drop (p + 1) := by
    rw [hv, ← hqval]
    apply getD_mem_of_lt
    rw [List.length_drop]
    omega
  have hfil : buf.getD p 0 ∈ (buf.drop (p + 1)).filter (fun c => decide (c ≠ 0)) :=
    List.mem_filter.mpr ⟨hmem, by simpa using hnz⟩
  have hnd2 : ((buf.take p ++ buf.getD p 0 :: buf.drop (p + 1)).filter
      (fun c => decide (c ≠ 0))).Nodup := by
    rw [← hd]
    exact hnd
  rw [List.filter_append, List.filter_cons] at hnd2
  rw [if_pos (by simpa using hnz)] at hnd2
  have hnd3 := hnd2.of_append_right
  exact (List.nodup_cons.mp hnd3).1 hfil

theorem getD_inj (buf : List Nat)
    (hnd : (buf.filter (fun c => decide (c ≠ 0))).Nodup) (p q : Nat)
    (hp : p < buf.length) (hq : q < buf.length) (hv : buf.getD p 0 = buf.getD q 0)
    (hnz : buf.getD p 0 ≠ 0) : p = q := by
  rcases Nat.lt_trichotomy p q with h | h | h
  · exact absurd (getD_inj_aux buf hnd p q h hq hv hnz) (fun f => f)
  · exact h
  · exact absurd (getD_inj_aux buf hnd q p h hp hv.symm (hv ▸ hnz)) (fun f => f)

/-! Walk-correctness: the key stored in a cell is found again by probing
from its home position.  This is the inductive invariant that makes
`HashTable::find` after `emplace` work. -/

/-- Cell `p` is walk-correct: probing for the key stored at `p` from that
key's home position stops exactly at `p`. -/
def WCAt (h : Nat → Nat) (d : Nat) (buf : List Nat) (p : Nat) : Prop :=
  findCell buf d (buf.getD p 0) (2 ^ d) (growerPlace d (h (buf.getD p 0))) = p

theorem cleanseg_congr {buf buf2 : List Nat} {x a b : Nat}
    (hagree : ∀ p, a ≤ p → p < b → buf2.getD p 0 = buf.getD p 0)
    (h : CleanSeg buf x a b) : CleanSeg buf2 x a b := by
  intro p hp1 hp2 hstop
  refine h p hp1 hp2 ?_
  rcases hstop with h0 | hx2
  · exact Or.inl (hagree p hp1 hp2 ▸ h0)
  · exact Or.inr (hagree p hp1 hp2 ▸ hx2)

theorem findCell_transfer_lin {buf buf2 : List Nat} {d x s e : Nat} (hse : s ≤ e)
    (he : e < 2 ^ d) (hcl : CleanSeg buf x s e) (hstop2 : IsStop buf2 x e)
    (hagree : ∀ p, s ≤ p → p < e → buf2.getD p 0 = buf.getD p 0) :
    findCell buf2 d x (2 ^ d) s = e :=
  findCell_eq_lin hse he (cleanseg_congr hagree hcl) hstop2

theorem findCell_transfer_wrap {buf buf2 : List Nat} {d x s e : Nat} (hes : e < s)
    (hs : s < 2 ^ d) (hcl1 : CleanSeg buf x s (2 ^ d)) (hcl2 : CleanSeg buf x 0 e)
    (hstop2 : IsStop buf2 x e)
    (hagree1 : ∀ p, s ≤ p → p < 2 ^ d → buf2.getD p 0 = buf.getD p 0)
    (hagree2 : ∀ p, 0 ≤ p → p < e → buf2.getD p 0 = buf.getD p 0) :
    findCell buf2 d x (2 ^ d) s = e :=
  findCell_eq_wrap hes hs (cleanseg_congr hagree1 hcl1) (cleanseg_congr hagree2 hcl2)
    hstop2

theorem agree_set (buf : List Nat) (q x : Nat) (hq0 : buf.getD q 0 = 0) {y a b : Nat}
    (hcl : CleanSeg buf y a b) :
    ∀ p, a ≤ p → p < b → (buf.set q x).getD p 0 = buf.getD p 0 := by
  intro p h1 h2
  have hpq : p ≠ q := fun he => hcl p h1 h2 (Or.inl (he ▸ hq0))
  rw [getD_set_ne buf q p x hpq]

theorem agree_move (buf : List Nat) (i q x : Nat) (hq0 : buf.getD q 0 = 0) {y a b : Nat}
    (hcl : CleanSeg buf y a b) (hi : ¬ (a ≤ i ∧ i < b)) :
    ∀ p, a ≤ p → p < b → ((buf.set q x).set i 0).getD p 0 = buf.getD p 0 := by
  intro p h1 h2
  have hpi : p ≠ i := fun he => hi (he ▸ ⟨h1, h2⟩)
  have hpq : p ≠ q := fun he => hcl p h1 h2 (Or.inl (he ▸ hq0))
  rw [getD_set_ne (buf.set q x) i p 0 hpi, getD_set_ne buf q p x hpq]

theorem agree_move_stopsrc (buf : List Nat) (i q x : Nat) (hq0 : buf.getD q 0 = 0)
    (hix : buf.getD i 0 = x) {a b : Nat} (hcl : CleanSeg buf x a b) :
    ∀ p, a ≤ p → p < b → ((buf.set q x).set i 0).getD p 0 = buf.getD p 0 := by
  intro p h1 h2
  have hpi : p ≠ i := fun he => hcl p h1 h2 (Or.inr (he ▸ hix))
  have hpq : p ≠ q := fun he => hcl p h1 h2 (Or.inl (he ▸ hq0))
  rw [getD_set_ne (buf.set q x) i p 0 hpi, getD_set_ne buf q p x hpq]

theorem home_lt (d : Nat) (v : Nat) : growerPlace d v < 2 ^ d :=
  Nat.mod_lt _ (Nat.pos_pow_of_pos d (by norm_num))

/-- Writing key `x` into the empty cell returned by its own probe walk
makes that cell walk-correct. -/
theorem wc_set_self (h : Nat → Nat) (d : Nat) (buf : List Nat) (x : Nat)
    (hL : buf.length = 2 ^ d) (hx : x ≠ 0)
    (hq0 : buf.getD (findCell buf d x (2 ^ d) (growerPlace d (h x))) 0 = 0) :
    WCAt h d (buf.set (findCell buf d x (2 ^ d) (growerPlace d (h x))) x)
      (findCell buf d x (2 ^ d) (growerPlace d (h x))) := by
  have hsd : growerPlace d (h x) < 2 ^ d := home_lt d (h x)
  have hqd : findCell buf d x (2 ^ d) (growerPlace d (h x)) < 2 ^ d :=
    findCell_lt (2 ^ d) _ hsd
  obtain ⟨hstop, hlt, hbr⟩ :=
    findCell_char buf d x (growerPlace d (h x))
      (findCell buf d x (2 ^ d) (growerPlace d (h x))) hsd hqd (Or.inl hq0)
  have hkey : (buf.set (findCell buf d x (2 ^ d) (growerPlace d (h x))) x).getD
      (findCell buf d x (2 ^ d) (growerPlace d (h x))) 0 = x :=
    getD_set_self buf _ x (by omega)
  unfold WCAt
  rw [hkey]
  rcases hbr with ⟨hse, hcl⟩ | ⟨hes, hcl1, hcl2⟩
  · exact findCell_transfer_lin hse hqd hcl (Or.inr hkey)
      (agree_set buf _ x hq0 hcl)
  · exact findCell_transfer_wrap hes hsd hcl1 hcl2 (Or.inr hkey)
      (agree_set buf _ x hq0 hcl1) (agree_set buf _ x hq0 hcl2)

/-- Filling an empty cell never disturbs other walk-correct cells: walk
interiors consist of occupied cells, so the filled cell is not on any
walk. -/
theorem wc_preserved_set (h : Nat → Nat) (d : Nat) (buf : List Nat) (q x p : Nat)
    (hq0 : buf.getD q 0 = 0) (hp : p < 2 ^ d) (hpq : p ≠ q)
    (hpz : buf.getD p 0 ≠ 0) (hwc : WCAt h d buf p) :
    WCAt h d (buf.set q x) p := by
  have hsd : growerPlace d (h (buf.getD p 0)) < 2 ^ d := home_lt d _
  obtain ⟨hstop, hlt, hbr⟩ :=
    findCell_char buf d (buf.getD p 0) (growerPlace d (h (buf.getD p 0))) p
      hsd hp (Or.inr rfl)
  rw [hwc] at hbr
  have hkey : (buf.set q x).getD p 0 = buf.getD p 0 := getD_set_ne buf q p x hpq
  unfold WCAt
  rw [hkey]
  rcases hbr with ⟨hse, hcl⟩ | ⟨hes, hcl1, hcl2⟩
  · exact findCell_transfer_lin hse hp hcl (Or.inr hkey) (agree_set buf q x hq0 hcl)
  · exact findCell_transfer_wrap hes hsd hcl1 hcl2 (Or.inr hkey)
      (agree_set buf q x hq0 hcl1) (agree_set buf q x hq0 hcl2)

/-- Moving key `x` from cell `i` to the empty cell returned by its probe
walk makes the target cell walk-correct (the source cell is a stop for `x`,
hence never strictly inside the walk). -/
theorem wc_move_self (h : Nat → Nat) (d : Nat) (buf : List Nat) (i x : Nat)
    (hL : buf.length = 2 ^ d) (hx : x ≠ 0) (hix : buf.getD i 0 = x)
    (hq0 : buf.getD (findCell buf d x (2 ^ d) (growerPlace d (h x))) 0 = 0) :
    WCAt h d ((buf.set (findCell buf d x (2 ^ d) (growerPlace d (h x))) x).set i 0)
      (findCell buf d x (2 ^ d) (growerPlace d (h x))) := by
  have hsd : growerPlace d (h x) < 2 ^ d := home_lt d (h x)
  have hqd : findCell buf d x (2 ^ d) (growerPlace d (h x)) < 2 ^ d :=
    findCell_lt (2 ^ d) _ hsd
  have hqi : findCell buf d x (2 ^ d) (growerPlace d (h x)) ≠ i := by
    intro he
    rw [he, hix] at hq0
    exact hx hq0
  obtain ⟨hstop, hlt, hbr⟩ :=
    findCell_char buf d x (growerPlace d (h x))
      (findCell buf d x (2 ^ d) (growerPlace d (h x))) hsd hqd (Or.inl hq0)
  have hkey : ((buf.set (findCell buf d x (2 ^ d) (growerPlace d (h x))) x).set i 0).getD
      (findCell buf d x (2 ^ d) (growerPlace d (h x))) 0 = x := by
    rw [getD_set_ne _ i _ 0 hqi]
    exact getD_set_self buf _ x (by omega)
  unfold WCAt
  rw [hkey]
  rcases hbr with ⟨hse, hcl⟩ | ⟨hes, hcl1, hcl2⟩
  · exact findCell_transfer_lin hse hqd hcl (Or.inr hkey)
      (agree_move_stopsrc buf i _ x hq0 hix hcl)
  · exact findCell_transfer_wrap hes hsd hcl1 hcl2 (Or.inr hkey)
      (agree_move_stopsrc buf i _ x hq0 hix hcl1)
      (agree_move_stopsrc buf i _ x hq0 hix hcl2)

/-- Effect of a move on another walk-correct cell `p`: either it stays
walk-correct, or the zeroed source cell `i` lay strictly inside its walk,
in which case the walk shape (linear or wrapped) is reported. -/
theorem wc_move_cases (h : Nat → Nat) (d : Nat) (buf : List Nat) (i q x p : Nat)
    (hq0 : buf.getD q 0 = 0) (hp : p < 2 ^ d) (hpq : p ≠ q) (hpi : p ≠ i)
    (hpz : buf.getD p 0 ≠ 0) (hwc : WCAt h d buf p) :
    WCAt h d ((buf.set q x).set i 0) p ∨
      ((growerPlace d (h (buf.getD p 0)) ≤ i ∧ i < p ∧
          CleanSeg buf (buf.getD p 0) (growerPlace d (h (buf.getD p 0))) p) ∨
        (p < growerPlace d (h (buf.getD p 0)) ∧
          CleanSeg buf (buf.getD p 0) (growerPlace d (h (buf.getD p 0))) (2 ^ d) ∧
          CleanSeg buf (buf.getD p 0) 0 p ∧
          ((growerPlace d (h (buf.getD p 0)) ≤ i ∧ i < 2 ^ d) ∨ i < p))) := by
  have hsd : growerPlace d (h (buf.getD p 0)) < 2 ^ d := home_lt d _
  obtain ⟨hstop, hlt, hbr⟩ :=
    findCell_char buf d (buf.getD p 0) (growerPlace d (h (buf.getD p 0))) p
      hsd hp (Or.inr rfl)
  rw [hwc] at hbr
  have hkey : ((buf.set q x).set i 0).getD p 0 = buf.getD p 0 := by
    rw [getD_set_ne _ i p 0 hpi, getD_set_ne buf q p x hpq]
  rcases hbr with ⟨hse, hcl⟩ | ⟨hes, hcl1, hcl2⟩
  · by_cases hin : growerPlace d (h (buf.getD p 0)) ≤ i ∧ i < p
    · exact Or.inr (Or.inl ⟨hin.1, hin.2, hcl⟩)
    · refine Or.inl ?_
      unfold WCAt
      rw [hkey]
      exact findCell_transfer_lin hse hp hcl (Or.inr hkey)
        (agree_move buf i q x hq0 hcl hin)
  · by_cases hin : (growerPlace d (h (buf.getD p 0)) ≤ i ∧ i < 2 ^ d) ∨ i < p
    · exact Or.inr (Or.inr ⟨hes, hcl1, hcl2, hin⟩)
    · push_neg at hin
      refine Or.inl ?_
      unfold WCAt
      rw [hkey]
      refine findCell_transfer_wrap hes hsd hcl1 hcl2 (Or.inr hkey)
        (agree_move buf i q x hq0 hcl1 ?_) (agree_move buf i q x hq0 hcl2 ?_)
      · intro hcon
        exact absurd (hin.1 hcon.1) (by omega)
      · intro hcon
        exact absurd hcon.2 (by omega)

/-! Case analysis of a single `reinsert` call (hash_table.h lines 485-506). -/

theorem reinsert_at_place (h : Nat → Nat) (d : Nat) (buf : List Nat) (i : Nat)
    (hip : i = growerPlace d (h (buf.getD i 0))) : reinsert h d buf i = buf := by
  simp only [reinsert]
  rw [if_pos hip]

theorem reinsert_occupied (h : Nat → Nat) (d : Nat) (buf : List Nat) (i : Nat)
    (hL : buf.length = 2 ^ d) (hip : i ≠ growerPlace d (h (buf.getD i 0)))
    (hq : buf.getD
        (findCell buf d (buf.getD i 0) (2 ^ d) (growerPlace d (h (buf.getD i 0)))) 0 ≠ 0) :
    reinsert h d buf i = buf := by
  simp only [reinsert]
  rw [hL, if_neg hip, if_pos hq]

theorem reinsert_move (h : Nat → Nat) (d : Nat) (buf : List Nat) (i : Nat)
    (hL : buf.length = 2 ^ d) (hip : i ≠ growerPlace d (h (buf.getD i 0)))
    (hq : buf.getD
        (findCell buf d (buf.getD i 0) (2 ^ d) (growerPlace d (h (buf.getD i 0)))) 0 = 0) :
    reinsert h d buf i =
      (buf.set (findCell buf d (buf.getD i 0) (2 ^ d) (growerPlace d (h (buf.getD i 0))))
        (buf.getD i 0)).set i 0 := by
  simp only [reinsert]
  rw [hL, if_neg hip, if_neg (fun hc => hc hq)]

/-- When the probe target of occupied cell `i` is itself occupied, it is the
cell `i`: the stop holds the same key and occupied keys are distinct. -/
theorem findCell_occupied_self (h : Nat → Nat) (d : Nat) (buf : List Nat) (i : Nat)
    (hL : buf.length = 2 ^ d)
    (hnd : (buf.filter (fun c => decide (c ≠ 0))).Nodup)
    (hiz : buf.getD i 0 ≠ 0)
    (hq : buf.getD
        (findCell buf d (buf.getD i 0) (2 ^ d) (growerPlace d (h (buf.getD i 0)))) 0 ≠ 0) :
    WCAt h d buf i := by
  have hilen : i < buf.length := lt_length_of_keyAt_ne hiz
  have hsd : growerPlace d (h (buf.getD i 0)) < 2 ^ d := home_lt d _
  obtain ⟨hstop, hqlt, _⟩ :=
    findCell_char buf d (buf.getD i 0) (growerPlace d (h (buf.getD i 0))) i
      hsd (by omega) (Or.inr rfl)
  have hfx : buf.getD
      (findCell buf d (buf.getD i 0) (2 ^ d) (growerPlace d (h (buf.getD i 0)))) 0 =
      buf.getD i 0 := hstop.resolve_left hq
  have heq := getD_inj buf hnd _ i (by omega) hilen hfx (by rw [hfx]; exact hiz)
  unfold WCAt
  exact heq

theorem wc_at_home (h : Nat → Nat) (d : Nat) (buf : List Nat) (i : Nat)
    (hi2 : i < 2 ^ d) (hip : i = growerPlace d (h (buf.getD i 0))) :
    WCAt h d buf i := by
  unfold WCAt
  rw [← hip]
  exact findCell_eq_lin le_rfl hi2 (fun p h1 h2 => absurd h1 (by omega)) (Or.inr rfl)

/-! First pass of `resize`: invariant. -/

/-- Invariant of the `resize` passes at new degree `d`; `N` is the old
buffer size and `t` the scan pointer of the first pass.  Occupied cells
that are not walk-correct live either in the unprocessed region `[t, N)`
or beyond `N` behind a contiguous occupied run starting at `N`; occupied
cells at or beyond `N` have non-wrapped home reach. -/
structure RehashInv (h : Nat → Nat) (d N : Nat) (buf : List Nat) (t : Nat) : Prop where
  len : buf.length = 2 ^ d
  nodup : (buf.filter (fun c => decide (c ≠ 0))).Nodup
  occn : occnz buf < N
  nl : 2 * N ≤ 2 ^ d
  homeN : ∀ p, N ≤ p → p < 2 ^ d → buf.getD p 0 ≠ 0 →
    growerPlace d (h (buf.getD p 0)) ≤ p
  broken : ∀ p, p < 2 ^ d → buf.getD p 0 ≠ 0 → ¬ WCAt h d buf p →
    (t ≤ p ∧ p < N) ∨ (N ≤ p ∧ ∀ j, N ≤ j → j < p → buf.getD j 0 ≠ 0)

theorem rehashMain_step (h : Nat → Nat) (d N t : Nat) (buf : List Nat)
    (ht : t < N) (inv : RehashInv h d N buf t) :
    RehashInv h d N (if buf.getD t 0 ≠ 0 then reinsert h d buf t else buf) (t + 1) ∧
      (if buf.getD t 0 ≠ 0 then reinsert h d buf t else buf).Perm buf := by
  by_cases hz : buf.getD t 0 ≠ 0
  · rw [if_pos hz]
    by_cases hip : t = growerPlace d (h (buf.getD t 0))
    · rw [reinsert_at_place h d buf t hip]
      refine ⟨⟨inv.len, inv.nodup, inv.occn, inv.nl, inv.homeN, ?_⟩, List.Perm.refl _⟩
      intro p hp hpz hbrk
      rcases inv.broken p hp hpz hbrk with ⟨h1, h2⟩ | hr
      · refine Or.inl ⟨?_, h2⟩
        rcases Nat.eq_or_lt_of_le h1 with he | hlt
        · exact absurd (wc_at_home h d buf t (by omega) hip) (he ▸ hbrk)
        · omega
      · exact Or.inr hr
    · by_cases hq : buf.getD
          (findCell buf d (buf.getD t 0) (2 ^ d) (growerPlace d (h (buf.getD t 0)))) 0 ≠ 0
      · rw [reinsert_occupied h d buf t inv.len hip hq]
        refine ⟨⟨inv.len, inv.nodup, inv.occn, inv.nl, inv.homeN, ?_⟩, List.Perm.refl _⟩
        intro p hp hpz hbrk
        rcases inv.broken p hp hpz hbrk with ⟨h1, h2⟩ | hr
        · refine Or.inl ⟨?_, h2⟩
          rcases Nat.eq_or_lt_of_le h1 with he | hlt
          · exact absurd (findCell_occupied_self h d buf t inv.len inv.nodup hz hq)
              (he ▸ hbrk)
          · omega
        · exact Or.inr hr
      · push_neg at hq
        rw [reinsert_move h d buf t inv.len hip hq]
        have hLb : buf.length = 2 ^ d := inv.len
        have hocc : occnz buf < N := inv.occn
        have hnl : 2 * N ≤ 2 ^ d := inv.nl
        have htlen : t < buf.length := lt_length_of_keyAt_ne hz
        have hsd : growerPlace d (h (buf.getD t 0)) < 2 ^ d := home_lt d _
        have hqd : findCell buf d (buf.getD t 0) (2 ^ d)
            (growerPlace d (h (buf.getD t 0))) < 2 ^ d := findCell_lt _ _ hsd
        have hqt : findCell buf d (buf.getD t 0) (2 ^ d)
            (growerPlace d (h (buf.getD t 0))) ≠ t := fun he => hz (by rw [← he]; exact hq)
        have hperm : ((buf.set (findCell buf d (buf.getD t 0) (2 ^ d)
            (growerPlace d (h (buf.getD t 0)))) (buf.getD t 0)).set t 0).Perm buf :=
          perm_move buf _ t (buf.getD t 0) (by omega) htlen hqt hq rfl
        have hlen2 : ((buf.set (findCell buf d (buf.getD t 0) (2 ^ d)
            (growerPlace d (h (buf.getD t 0)))) (buf.getD t 0)).set t 0).length =
            2 ^ d := by
          simp only [List.length_set]
          exact inv.len
        have hwcq : WCAt h d ((buf.set (findCell buf d (buf.getD t 0) (2 ^ d)
            (growerPlace d (h (buf.getD t 0)))) (buf.getD t 0)).set t 0)
            (findCell buf d (buf.getD t 0) (2 ^ d) (growerPlace d (h (buf.getD t 0)))) :=
          wc_move_self h d buf t (buf.getD t 0) inv.len hz rfl hq
        have hvt : ((buf.set (findCell buf d (buf.getD t 0) (2 ^ d)
            (growerPlace d (h (buf.getD t 0)))) (buf.getD t 0)).set t 0).getD t 0 = 0 :=
          getD_set_self _ t 0 (by simpa using htlen)
        have hvq : ((buf.set (findCell buf d (buf.getD t 0) (2 ^ d)
            (growerPlace d (h (buf.getD t 0)))) (buf.getD t 0)).set t 0).getD
            (findCell buf d (buf.getD t 0) (2 ^ d) (growerPlace d (h (buf.getD t 0)))) 0 =
            buf.getD t 0 := by
          rw [getD_set_ne _ t _ 0 hqt]
          exact getD_set_self buf _ _ (by omega)
        have hvother : ∀ p, p ≠ t → p ≠ findCell buf d (buf.getD t 0) (2 ^ d)
            (growerPlace d (h (buf.getD t 0))) →
            ((buf.set (findCell buf d (buf.getD t 0) (2 ^ d)
              (growerPlace d (h (buf.getD t 0)))) (buf.getD t 0)).set t 0).getD p 0 =
              buf.getD p 0 := by
          intro p hpt hpq
          rw [getD_set_ne _ t p 0 hpt, getD_set_ne buf _ p _ hpq]
        refine ⟨⟨hlen2, (hperm.filter _).nodup_iff.mpr inv.nodup,
          by rw [show occnz ((buf.set (findCell buf d (buf.getD t 0) (2 ^ d)
              (growerPlace d (h (buf.getD t 0)))) (buf.getD t 0)).set t 0) =
              occnz buf from hperm.countP_eq _]; exact inv.occn,
          inv.nl, ?_, ?_⟩, hperm⟩
        · -- homeN preserved
          intro p hpN hp2 hpz
          by_cases hpt : p = t
          · rw [hpt, hvt] at hpz
            exact absurd rfl hpz
          · by_cases hpq : p = findCell buf d (buf.getD t 0) (2 ^ d)
                (growerPlace d (h (buf.getD t 0)))
            · rw [hpq, hvq]
              subst hpq
              obtain ⟨_, _, hbr⟩ :=
                findCell_char buf d (buf.getD t 0)
                  (growerPlace d (h (buf.getD t 0)))
                  (findCell buf d (buf.getD t 0) (2 ^ d)
                    (growerPlace d (h (buf.getD t 0)))) hsd hqd (Or.inl hq)
              rcases hbr with ⟨hle, _⟩ | ⟨hlt2, _, hcl2⟩
              · exact hle
              · have hcnt : findCell buf d (buf.getD t 0) (2 ^ d)
                    (growerPlace d (h (buf.getD t 0))) - 0 ≤ occnz buf := by
                  refine nz_seg_le_occ buf 0 _ (by omega) ?_
                  intro r hr1 hr2
                  intro hr0
                  exact hcl2 r hr1 hr2 (Or.inl hr0)
                omega
            · rw [hvother p hpt hpq]
              rw [hvother p hpt hpq] at hpz
              exact inv.homeN p hpN hp2 hpz
        · -- broken containment
          intro p hp hpz hbrk
          by_cases hpt : p = t
          · rw [hpt, hvt] at hpz
            exact absurd rfl hpz
          · by_cases hpq : p = findCell buf d (buf.getD t 0) (2 ^ d)
                (growerPlace d (h (buf.getD t 0)))
            · exact absurd (hpq ▸ hwcq) hbrk
            · have hval := hvother p hpt hpq
              rw [hval] at hpz
              by_cases hwcold : WCAt h d buf p
              · rcases wc_move_cases h d buf t
                  (findCell buf d (buf.getD t 0) (2 ^ d)
                    (growerPlace d (h (buf.getD t 0)))) (buf.getD t 0) p hq hp hpq hpt
                  hpz hwcold with hkeep | hcase
                · exact absurd hkeep hbrk
                · rcases hcase with ⟨hhi, hit, hcl⟩ | ⟨hph, hcl1, hcl2, hin⟩
                  · -- linear walk through t
                    by_cases hpN : p < N
                    · exact Or.inl ⟨by omega, hpN⟩
                    · refine Or.inr ⟨by omega, ?_⟩
                      intro j hj1 hj2
                      have hclj : ¬ IsStop buf (buf.getD p 0) j :=
                        hcl j (by omega) (by omega)
                      have hjz : buf.getD j 0 ≠ 0 := fun hc => hclj (Or.inl hc)
                      have hjt : j ≠ t := by omega
                      have hjq : j ≠ findCell buf d (buf.getD t 0) (2 ^ d)
                          (growerPlace d (h (buf.getD t 0))) :=
                        fun he => hjz (he ▸ hq)
                      rw [hvother j hjt hjq]
                      exact hjz
                  · -- wrapped walk
                    rcases hin with ⟨hhi, _⟩ | hit
                    · exfalso
                      have hcnt : 2 ^ d - growerPlace d (h (buf.getD p 0)) ≤
                          occnz buf := by
                        refine nz_seg_le_occ buf _ _ (by omega) ?_
                        intro r hr1 hr2 hr0
                        exact hcl1 r hr1 hr2 (Or.inl hr0)
                      have := inv.occn
                      have := inv.nl
                      omega
                    · by_cases hpN : p < N
                      · exact Or.inl ⟨by omega, hpN⟩
                      · refine Or.inr ⟨by omega, ?_⟩
                        intro j hj1 hj2
                        have hclj : ¬ IsStop buf (buf.getD p 0) j :=
                          hcl2 j (by omega) (by omega)
                        have hjz : buf.getD j 0 ≠ 0 := fun hc => hclj (Or.inl hc)
                        have hjt : j ≠ t := by omega
                        have hjq : j ≠ findCell buf d (buf.getD t 0) (2 ^ d)
                            (growerPlace d (h (buf.getD t 0))) :=
                          fun he => hjz (he ▸ hq)
                        rw [hvother j hjt hjq]
                        exact hjz
              · rcases inv.broken p hp hpz hwcold with ⟨h1, h2⟩ | ⟨hNp, hrun⟩
                · exact Or.inl ⟨by omega, h2⟩
                · refine Or.inr ⟨hNp, ?_⟩
                  intro j hj1 hj2
                  have hjz := hrun j hj1 hj2
                  have hjt : j ≠ t := by omega
                  have hjq : j ≠ findCell buf d (buf.getD t 0) (2 ^ d)
                      (growerPlace d (h (buf.getD t 0))) :=
                    fun he => hjz (he ▸ hq)
                  rw [hvother j hjt hjq]
                  exact hjz
  · rw [if_neg hz]
    push_neg at hz
    refine ⟨⟨inv.len, inv.nodup, inv.occn, inv.nl, inv.homeN, ?_⟩, List.Perm.refl _⟩
    intro p hp hpz hbrk
    rcases inv.broken p hp hpz hbrk with ⟨h1, h2⟩ | hr
    · refine Or.inl ⟨?_, h2⟩
      rcases Nat.eq_or_lt_of_le h1 with he | hlt
      · exact absurd hz (he ▸ hpz)
      · omega
    · exact Or.inr hr

theorem rehashMain_inv (h : Nat → Nat) (d N : Nat) :
    ∀ count t buf, t + count = N → RehashInv h d N buf t →
      RehashInv h d N (rehashMain h d buf t count) N ∧
        (rehashMain h d buf t count).Perm buf := by
  intro count
  induction count with
  | zero =>
    intro t buf htc inv
    have ht : t = N := by omega
    subst ht
    exact ⟨inv, List.Perm.refl _⟩
  | succ n ih =>
    intro t buf htc inv
    obtain ⟨inv2, hperm⟩ := rehashMain_step h d N t buf (by omega) inv
    have hunf : rehashMain h d buf t (n + 1) =
        rehashMain h d (if buf.getD t 0 ≠ 0 then reinsert h d buf t else buf) (t + 1) n :=
      rfl
    rw [hunf]
    obtain ⟨inv3, hperm2⟩ := ih (t + 1) _ (by omega) inv2
    exact ⟨inv3, hperm2.trans hperm⟩

/-! Tail pass of `resize`. -/

/-- Invariant of the wrap-around tail pass of `resize`; `buf0` is the
buffer at the start of the tail pass and `t ≥ N` is the tail pointer.
Since every occupied cell at or beyond `N` has non-wrapped home reach, the
tail only moves keys backwards: cells ahead of the pointer are never
filled, so an occupied cell ahead was already occupied in `buf0`. -/
structure TailInv (h : Nat → Nat) (d N : Nat) (buf0 buf : List Nat) (t : Nat) : Prop where
  len : buf.length = 2 ^ d
  nodup : (buf.filter (fun c => decide (c ≠ 0))).Nodup
  occn : occnz buf < N
  nl : 2 * N ≤ 2 ^ d
  tN : N ≤ t
  homeN : ∀ p, N ≤ p → p < 2 ^ d → buf.getD p 0 ≠ 0 →
    growerPlace d (h (buf.getD p 0)) ≤ p
  broken : ∀ p, p < 2 ^ d → buf.getD p 0 ≠ 0 → ¬ WCAt h d buf p →
    t ≤ p ∧ ∀ j, t ≤ j → j < p → buf.getD j 0 ≠ 0
  hist : ∀ p, t ≤ p → p < 2 ^ d → buf.getD p 0 ≠ 0 → buf0.getD p 0 ≠ 0
  visited : ∀ p, N ≤ p → p < t → buf0.getD p 0 ≠ 0

theorem rehashTail_inv (h : Nat → Nat) (d N : Nat) (buf0 : List Nat)
    (hocc0 : occnz buf0 < N) (hlen0 : buf0.length = 2 ^ d) :
    ∀ fuel buf t, 2 ^ d + N ≤ t + fuel → TailInv h d N buf0 buf t →
      (rehashTail h d buf t fuel).length = 2 ^ d ∧
        ((rehashTail h d buf t fuel).filter (fun c => decide (c ≠ 0))).Nodup ∧
        (∀ p, p < 2 ^ d → (rehashTail h d buf t fuel).getD p 0 ≠ 0 →
          WCAt h d (rehashTail h d buf t fuel) p) ∧
        (rehashTail h d buf t fuel).Perm buf := by
  intro fuel
  induction fuel with
  | zero =>
    intro buf t hft inv
    refine ⟨inv.len, inv.nodup, ?_, List.Perm.refl _⟩
    intro p hp hpz
    by_contra hbrk
    obtain ⟨htp, _⟩ := inv.broken p hp hpz hbrk
    omega
  | succ n ih =>
    intro buf t hft inv
    have hunf : rehashTail h d buf t (n + 1) =
        if buf.getD t 0 = 0 then buf else rehashTail h d (reinsert h d buf t) (t + 1) n :=
      rfl
    by_cases hz : buf.getD t 0 = 0
    · rw [hunf, if_pos hz]
      refine ⟨inv.len, inv.nodup, ?_, List.Perm.refl _⟩
      intro p hp hpz
      by_contra hbrk
      obtain ⟨htp, hrun⟩ := inv.broken p hp hpz hbrk
      rcases Nat.eq_or_lt_of_le htp with he | hlt
      · exact hpz (he ▸ hz)
      · exact (hrun t le_rfl hlt) hz
    · rw [hunf, if_neg hz]
      have htlen : t < buf.length := lt_length_of_keyAt_ne hz
      have hLb : buf.length = 2 ^ d := inv.len
      have hocc : occnz buf < N := inv.occn
      have hnl : 2 * N ≤ 2 ^ d := inv.nl
      have htN : N ≤ t := inv.tN
      have hhome : growerPlace d (h (buf.getD t 0)) ≤ t :=
        inv.homeN t htN (by omega) hz
      -- common advance: build the invariant at pointer t + 1 for the
      -- buffer left by `reinsert`, then recurse.
      have hstep : ∀ buf2, buf2.Perm buf → TailInv h d N buf0 buf2 (t + 1) →
          (rehashTail h d buf2 (t + 1) n).length = 2 ^ d ∧
            ((rehashTail h d buf2 (t + 1) n).filter (fun c => decide (c ≠ 0))).Nodup ∧
            (∀ p, p < 2 ^ d → (rehashTail h d buf2 (t + 1) n).getD p 0 ≠ 0 →
              WCAt h d (rehashTail h d buf2 (t + 1) n) p) ∧
            (rehashTail h d buf2 (t + 1) n).Perm buf := by
        intro buf2 hperm inv2
        obtain ⟨a, b, c, hp2⟩ := ih buf2 (t + 1) (by omega) inv2
        exact ⟨a, b, c, hp2.trans hperm⟩
      by_cases hip : t = growerPlace d (h (buf.getD t 0))
      · rw [reinsert_at_place h d buf t hip]
        refine hstep buf (List.Perm.refl _) ⟨inv.len, inv.nodup, inv.occn, inv.nl,
          by omega, inv.homeN, ?_, ?_, ?_⟩
        · intro p hp hpz hbrk
          obtain ⟨htp, hrun⟩ := inv.broken p hp hpz hbrk
          rcases Nat.eq_or_lt_of_le htp with he | hlt
          · exact absurd (wc_at_home h d buf t (by omega) hip) (he ▸ hbrk)
          · exact ⟨by omega, fun j hj1 hj2 => hrun j (by omega) hj2⟩
        · intro p hp1 hp2 hpz
          exact inv.hist p (by omega) hp2 hpz
        · intro p hp1 hp2
          rcases Nat.lt_or_ge p t with hlt | hge
          · exact inv.visited p hp1 hlt
          · have hpt : p = t := by omega
            exact inv.hist p (by omega) (by omega) (hpt ▸ hz)
      · by_cases hq : buf.getD
            (findCell buf d (buf.getD t 0) (2 ^ d) (growerPlace d (h (buf.getD t 0)))) 0 ≠ 0
        · rw [reinsert_occupied h d buf t inv.len hip hq]
          refine hstep buf (List.Perm.refl _) ⟨inv.len, inv.nodup, inv.occn, inv.nl,
            by omega, inv.homeN, ?_, ?_, ?_⟩
          · intro p hp hpz hbrk
            obtain ⟨htp, hrun⟩ := inv.broken p hp hpz hbrk
            rcases Nat.eq_or_lt_of_le htp with he | hlt
            · exact absurd (findCell_occupied_self h d buf t inv.len inv.nodup hz hq)
                (he ▸ hbrk)
            · exact ⟨by omega, fun j hj1 hj2 => hrun j (by omega) hj2⟩
          · intro p hp1 hp2 hpz
            exact inv.hist p (by omega) hp2 hpz
          · intro p hp1 hp2
            rcases Nat.lt_or_ge p t with hlt | hge
            · exact inv.visited p hp1 hlt
            · have hpt : p = t := by omega
              exact inv.hist p (by omega) (by omega) (hpt ▸ hz)
        · push_neg at hq
          rw [reinsert_move h d buf t inv.len hip hq]
          -- the probe target lies strictly before the pointer: the walk
          -- from the home position meets the stop at `t` no later than `t`.
          obtain ⟨_, hhq, hqle, hclq⟩ :=
            findCell_char_lin buf d (buf.getD t 0) (2 ^ d)
              (growerPlace d (h (buf.getD t 0))) t hhome (by omega) (Or.inr rfl)
              (by omega)
          have hqt : findCell buf d (buf.getD t 0) (2 ^ d)
              (growerPlace d (h (buf.getD t 0))) ≠ t := fun he => hz (by rw [← he]; exact hq)
          have hqlt : findCell buf d (buf.getD t 0) (2 ^ d)
              (growerPlace d (h (buf.getD t 0))) < t := by omega
          have hqd : findCell buf d (buf.getD t 0) (2 ^ d)
              (growerPlace d (h (buf.getD t 0))) < 2 ^ d := by omega
          have hperm : ((buf.set (findCell buf d (buf.getD t 0) (2 ^ d)
              (growerPlace d (h (buf.getD t 0)))) (buf.getD t 0)).set t 0).Perm buf :=
            perm_move buf _ t (buf.getD t 0) (by omega) htlen hqt hq rfl
          have hvt : ((buf.set (findCell buf d (buf.getD t 0) (2 ^ d)
              (growerPlace d (h (buf.getD t 0)))) (buf.getD t 0)).set t 0).getD t 0 = 0 :=
            getD_set_self _ t 0 (by rw [List.length_set]; exact htlen)
          have hwcq : WCAt h d ((buf.set (findCell buf d (buf.getD t 0) (2 ^ d)
              (growerPlace d (h (buf.getD t 0)))) (buf.getD t 0)).set t 0)
              (findCell buf d (buf.getD t 0) (2 ^ d) (growerPlace d (h (buf.getD t 0)))) :=
            wc_move_self h d buf t (buf.getD t 0) inv.len hz rfl hq
          have hvq : ((buf.set (findCell buf d (buf.getD t 0) (2 ^ d)
              (growerPlace d (h (buf.getD t 0)))) (buf.getD t 0)).set t 0).getD
              (findCell buf d (buf.getD t 0) (2 ^ d) (growerPlace d (h (buf.getD t 0)))) 0 =
              buf.getD t 0 := by
            rw [getD_set_ne _ t _ 0 hqt]
            exact getD_set_self buf _ _ (by omega)
          have hvother : ∀ p, p ≠ t → p ≠ findCell buf d (buf.getD t 0) (2 ^ d)
              (growerPlace d (h (buf.getD t 0))) →
              ((buf.set (findCell buf d (buf.getD t 0) (2 ^ d)
                (growerPlace d (h (buf.getD t 0)))) (buf.getD t 0)).set t 0).getD p 0 =
                buf.getD p 0 := by
            intro p hpt hpq
            rw [getD_set_ne _ t p 0 hpt, getD_set_ne buf _ p _ hpq]
          refine hstep _ hperm ⟨by simp only [List.length_set]; exact inv.len,
            (hperm.filter _).nodup_iff.mpr inv.nodup,
            by rw [show occnz ((buf.set (findCell buf d (buf.getD t 0) (2 ^ d)
                (growerPlace d (h (buf.getD t 0)))) (buf.getD t 0)).set t 0) =
                occnz buf from hperm.countP_eq _]; exact inv.occn,
            inv.nl, by omega, ?_, ?_, ?_, ?_⟩
          · -- homeN
            intro p hpN hp2 hpz
            by_cases hpt : p = t
            · rw [hpt, hvt] at hpz
              exact absurd rfl hpz
            · by_cases hpq : p = findCell buf d (buf.getD t 0) (2 ^ d)
                  (growerPlace d (h (buf.getD t 0)))
              · rw [hpq, hvq]
                exact hhq
              · rw [hvother p hpt hpq]
                rw [hvother p hpt hpq] at hpz
                exact inv.homeN p hpN hp2 hpz
          · -- broken containment
            intro p hp hpz hbrk
            by_cases hpt : p = t
            · rw [hpt, hvt] at hpz
              exact absurd rfl hpz
            · by_cases hpq : p = findCell buf d (buf.getD t 0) (2 ^ d)
                  (growerPlace d (h (buf.getD t 0)))
              · exact absurd (hpq ▸ hwcq) hbrk
              · have hval := hvother p hpt hpq
                rw [hval] at hpz
                by_cases hwcold : WCAt h d buf p
                · rcases wc_move_cases h d buf t
                    (findCell buf d (buf.getD t 0) (2 ^ d)
                      (growerPlace d (h (buf.getD t 0)))) (buf.getD t 0) p hq hp hpq hpt
                    hpz hwcold with hkeep | hcase
                  · exact absurd hkeep hbrk
                  · rcases hcase with ⟨hhi, hit, hcl⟩ | ⟨hph, hcl1, hcl2, hin⟩
                    · -- linear walk through t: p is ahead within an occupied run
                      refine ⟨by omega, ?_⟩
                      intro j hj1 hj2
                      have hclj : ¬ IsStop buf (buf.getD p 0) j :=
                        hcl j (by omega) (by omega)
                      have hjz : buf.getD j 0 ≠ 0 := fun hc => hclj (Or.inl hc)
                      rw [hvother j (by omega) (by omega)]
                      exact hjz
                    · -- wrapped walk: impossible, the whole top half of the
                      -- tail-start buffer would have to be occupied
                      exfalso
                      rcases hin with ⟨hhi, _⟩ | hit
                      · have hall0 : ∀ j, N ≤ j → j < 2 ^ d → buf0.getD j 0 ≠ 0 := by
                          intro j hj1 hj2
                          rcases Nat.lt_or_ge j t with hjt | hjt
                          · exact inv.visited j hj1 hjt
                          · have hclj : ¬ IsStop buf (buf.getD p 0) j :=
                              hcl1 j (by omega) hj2
                            have hjz : buf.getD j 0 ≠ 0 := fun hc => hclj (Or.inl hc)
                            exact inv.hist j hjt hj2 hjz
                        have hcnt : 2 ^ d - N ≤ occnz buf0 :=
                          nz_seg_le_occ buf0 N (2 ^ d) (by omega) hall0
                        omega
                      · have hallN : ∀ j, 0 ≤ j → j < N → buf.getD j 0 ≠ 0 := by
                          intro j hj1 hj2
                          have hclj : ¬ IsStop buf (buf.getD p 0) j :=
                            hcl2 j hj1 (by omega)
                          exact fun hc => hclj (Or.inl hc)
                        have hcnt : N - 0 ≤ occnz buf := nz_seg_le_occ buf 0 N (by omega) hallN
                        omega
                · obtain ⟨htp, hrun⟩ := inv.broken p hp hpz hwcold
                  refine ⟨by omega, ?_⟩
                  intro j hj1 hj2
                  have hjz := hrun j (by omega) hj2
                  rw [hvother j (by omega) (by omega)]
                  exact hjz
          · -- hist
            intro p hp1 hp2 hpz
            have hpt : p ≠ t := by omega
            have hpq : p ≠ findCell buf d (buf.getD t 0) (2 ^ d)
                (growerPlace d (h (buf.getD t 0))) := by omega
            rw [hvother p hpt hpq] at hpz
            exact inv.hist p (by omega) hp2 hpz
          · -- visited
            intro p hp1 hp2
            rcases Nat.lt_or_ge p t with hlt | hge
            · exact inv.visited p hp1 hlt
            · have hpt : p = t := by omega
              exact inv.hist p (by omega) (by omega) (hpt ▸ hz)

theorem getD_replicate_zero (n m : Nat) : (List.replicate n (0 : Nat)).getD m 0 = 0 := by
  induction n generalizing m with
  | zero => rfl
  | succ k ih =>
    cases m with
    | zero => rfl
    | succ r => simpa using ih r

theorem filter_replicate_zero (n : Nat) :
    (List.replicate n (0 : Nat)).filter (fun c => decide (c ≠ 0)) = [] := by
  induction n with
  | zero => rfl
  | succ k ih => simpa using ih

theorem occnz_append_zeros (l : List Nat) (n : Nat) :
    occnz (l ++ List.replicate n 0) = occnz l := by
  unfold occnz
  rw [List.countP_append]
  have hz : (List.replicate n (0 : Nat)).countP (fun c => decide (c ≠ 0)) = 0 := by
    rw [List.countP_eq_length_filter, filter_replicate_zero]
    rfl
  omega

/-- `HashTable::resize` (growth case) preserves the table contents — same
occupied keys, occupancy, element count and zero flag — and leaves every
occupied cell walk-correct at the increased degree. -/
theorem resize_preserves (h : Nat → Nat) (t : HashTable)
    (hdeg : 2 ≤ t.sizeDegree) (hlen : t.buf.length = 2 ^ t.sizeDegree)
    (hnodup : (t.buf.filter (fun c => decide (c ≠ 0))).Nodup)
    (hocc : occnz t.buf ≤ growerMaxFill t.sizeDegree + 1) :
    (t.resize h).sizeDegree = growerIncreaseSize t.sizeDegree ∧
      (t.resize h).buf.length = 2 ^ (t.resize h).sizeDegree ∧
      ((t.resize h).buf.filter (fun c => decide (c ≠ 0))).Nodup ∧
      occnz (t.resize h).buf = occnz t.buf ∧
      (∀ v, v ≠ 0 → (v ∈ (t.resize h).buf ↔ v ∈ t.buf)) ∧
      (∀ p, p < 2 ^ (t.resize h).sizeDegree → (t.resize h).buf.getD p 0 ≠ 0 →
        WCAt h (t.resize h).sizeDegree (t.resize h).buf p) ∧
      (t.resize h).m_size = t.m_size ∧ (t.resize h).hasZero = t.hasZero := by
  have hd1 : t.sizeDegree + 1 ≤ growerIncreaseSize t.sizeDegree := by
    unfold growerIncreaseSize
    split_ifs <;> omega
  have hpow : 2 * 2 ^ t.sizeDegree ≤ 2 ^ growerIncreaseSize t.sizeDegree := by
    have h1 : 2 * 2 ^ t.sizeDegree = 2 ^ (t.sizeDegree + 1) := by
      rw [pow_succ]
      ring
    rw [h1]
    exact Nat.pow_le_pow_right (by norm_num) hd1
  have hNle : 2 ^ t.sizeDegree ≤ 2 ^ growerIncreaseSize t.sizeDegree := by omega
  have hmf : 2 * growerMaxFill t.sizeDegree = 2 ^ t.sizeDegree := by
    obtain ⟨k, hk⟩ : ∃ k, t.sizeDegree = k + 1 := ⟨t.sizeDegree - 1, by omega⟩
    rw [hk]
    unfold growerMaxFill
    rw [Nat.add_sub_cancel, pow_succ]
    ring
  have hmf2 : 2 ≤ growerMaxFill t.sizeDegree := by
    unfold growerMaxFill
    have h2 : (1 : Nat) ≤ t.sizeDegree - 1 := by omega
    calc 2 = 2 ^ 1 := by norm_num
    _ ≤ 2 ^ (t.sizeDegree - 1) := Nat.pow_le_pow_right (by norm_num) h2
  have hoccN : occnz t.buf < 2 ^ t.sizeDegree := by omega
  have hrb : (t.resize h).buf = rehashTail h (growerIncreaseSize t.sizeDegree)
      (rehashMain h (growerIncreaseSize t.sizeDegree)
        (t.buf ++ List.replicate (growerBufSize (growerIncreaseSize t.sizeDegree) -
          growerBufSize t.sizeDegree) 0) 0 (growerBufSize t.sizeDegree))
      (growerBufSize t.sizeDegree)
      (t.buf ++ List.replicate (growerBufSize (growerIncreaseSize t.sizeDegree) -
        growerBufSize t.sizeDegree) 0).length := rfl
  have hrd : (t.resize h).sizeDegree = growerIncreaseSize t.sizeDegree := rfl
  have hrm : (t.resize h).m_size = t.m_size := rfl
  have hrz : (t.resize h).hasZero = t.hasZero := rfl
  have hB : growerBufSize t.sizeDegree = 2 ^ t.sizeDegree := rfl
  have hB2 : growerBufSize (growerIncreaseSize t.sizeDegree) =
      2 ^ growerIncreaseSize t.sizeDegree := rfl
  have hlen1 : (t.buf ++ List.replicate (growerBufSize (growerIncreaseSize t.sizeDegree) -
      growerBufSize t.sizeDegree) 0).length = 2 ^ growerIncreaseSize t.sizeDegree := by
    rw [List.length_append, List.length_replicate, hlen, hB, hB2]
    omega
  have hfil1 : (t.buf ++ List.replicate (growerBufSize (growerIncreaseSize t.sizeDegree) -
      growerBufSize t.sizeDegree) 0).filter (fun c => decide (c ≠ 0)) =
      t.buf.filter (fun c => decide (c ≠ 0)) := by
    rw [List.filter_append, filter_replicate_zero, List.append_nil]
  have hocc1 : occnz (t.buf ++ List.replicate
      (growerBufSize (growerIncreaseSize t.sizeDegree) - growerBufSize t.sizeDegree) 0) =
      occnz t.buf := occnz_append_zeros _ _
  have hhi1 : ∀ p, 2 ^ t.sizeDegree ≤ p →
      (t.buf ++ List.replicate (growerBufSize (growerIncreaseSize t.sizeDegree) -
        growerBufSize t.sizeDegree) 0).getD p 0 = 0 := by
    intro p hp
    have hp2 : p = t.buf.length + (p - 2 ^ t.sizeDegree) := by omega
    rw [hp2, getD_append_add, getD_replicate_zero]
  have hlo1 : ∀ p, p < 2 ^ t.sizeDegree →
      (t.buf ++ List.replicate (growerBufSize (growerIncreaseSize t.sizeDegree) -
        growerBufSize t.sizeDegree) 0).getD p 0 = t.buf.getD p 0 := by
    intro p hp
    exact getD_append_left (by omega)
  have inv1 : RehashInv h (growerIncreaseSize t.sizeDegree) (2 ^ t.sizeDegree)
      (t.buf ++ List.replicate (growerBufSize (growerIncreaseSize t.sizeDegree) -
        growerBufSize t.sizeDegree) 0) 0 := by
    refine ⟨hlen1, by rw [hfil1]; exact hnodup, by rw [hocc1]; exact hoccN, by omega,
      ?_, ?_⟩
    · intro p hpN hp2 hpz
      exact absurd (hhi1 p hpN) hpz
    · intro p hp hpz hbrk
      by_cases hpN : p < 2 ^ t.sizeDegree
      · exact Or.inl ⟨Nat.zero_le p, hpN⟩
      · exact absurd (hhi1 p (by omega)) hpz
  obtain ⟨inv2, hperm21⟩ :=
    rehashMain_inv h (growerIncreaseSize t.sizeDegree) (2 ^ t.sizeDegree)
      (2 ^ t.sizeDegree) 0 _ (by omega) inv1
  have inv3 : TailInv h (growerIncreaseSize t.sizeDegree) (2 ^ t.sizeDegree)
      (rehashMain h (growerIncreaseSize t.sizeDegree)
        (t.buf ++ List.replicate (growerBufSize (growerIncreaseSize t.sizeDegree) -
          growerBufSize t.sizeDegree) 0) 0 (2 ^ t.sizeDegree))
      (rehashMain h (growerIncreaseSize t.sizeDegree)
        (t.buf ++ List.replicate (growerBufSize (growerIncreaseSize t.sizeDegree) -
          growerBufSize t.sizeDegree) 0) 0 (2 ^ t.sizeDegree)) (2 ^ t.sizeDegree) := by
    refine ⟨inv2.len, inv2.nodup, inv2.occn, inv2.nl, le_rfl, inv2.homeN, ?_,
      fun p _ _ hpz => hpz, fun p hp1 hp2 => absurd hp1 (by omega)⟩
    intro p hp hpz hbrk
    rcases inv2.broken p hp hpz hbrk with ⟨h1, h2⟩ | ⟨h1, h2⟩
    · omega
    · exact ⟨h1, fun j hj1 hj2 => h2 j hj1 hj2⟩
  obtain ⟨len3, nodup3, wc3, hperm32⟩ :=
    rehashTail_inv h (growerIncreaseSize t.sizeDegree) (2 ^ t.sizeDegree)
      (rehashMain h (growerIncreaseSize t.sizeDegree)
        (t.buf ++ List.replicate (growerBufSize (growerIncreaseSize t.sizeDegree) -
          growerBufSize t.sizeDegree) 0) 0 (2 ^ t.sizeDegree))
      inv2.occn inv2.len (2 ^ growerIncreaseSize t.sizeDegree) _ (2 ^ t.sizeDegree)
      (by omega) inv3
  have hBr : growerBufSize t.sizeDegree = 2 ^ t.sizeDegree := rfl
  have hperm31 := hperm32.trans hperm21
  rw [hBr] at len3 nodup3 wc3 hperm31 hocc1
  rw [hrd, hrm, hrz, hrb, hlen1, hBr]
  refine ⟨rfl, len3, nodup3, ?_, ?_, wc3, rfl, rfl⟩
  · rw [show occnz (rehashTail h (growerIncreaseSize t.sizeDegree)
        (rehashMain h (growerIncreaseSize t.sizeDegree)
          (t.buf ++ List.replicate (growerBufSize (growerIncreaseSize t.sizeDegree) -
            2 ^ t.sizeDegree) 0) 0 (2 ^ t.sizeDegree))
        (2 ^ t.sizeDegree) (2 ^ growerIncreaseSize t.sizeDegree)) =
      occnz (t.buf ++ List.replicate (growerBufSize (growerIncreaseSize t.sizeDegree) -
        2 ^ t.sizeDegree) 0) from hperm31.countP_eq _]
    exact hocc1
  · intro v hv
    rw [hperm31.mem_iff, List.mem_append]
    constructor
    · intro hm
      rcases hm with hm | hm
      · exact hm
      · exact absurd (List.eq_of_mem_replicate hm) hv
    · intro hm
      exact Or.inl hm

/-- Well-formedness invariant of a reachable `HashTable`: correct buffer
size, pairwise-distinct occupied keys, every occupied cell walk-correct,
`m_size` counting occupied cells plus the zero slot, and bucket occupancy
within `maxFill`. -/
structure TableWF (h : Nat → Nat) (t : HashTable) : Prop where
  deg : 2 ≤ t.sizeDegree
  len : t.buf.length = 2 ^ t.sizeDegree
  nodup : (t.buf.filter (fun c => decide (c ≠ 0))).Nodup
  wc : ∀ p, p < 2 ^ t.sizeDegree → t.buf.getD p 0 ≠ 0 → WCAt h t.sizeDegree t.buf p
  size_eq : t.m_size = occnz t.buf + (if t.hasZero then 1 else 0)
  occ_le : occnz t.buf ≤ growerMaxFill t.sizeDegree

theorem mem_iff_getD (buf : List Nat) (v : Nat) (hv : v ≠ 0) :
    v ∈ buf ↔ ∃ p, p < buf.length ∧ buf.getD p 0 = v := by
  constructor
  · intro hm
    obtain ⟨p, hp, hpv⟩ := List.mem_iff_getElem.mp hm
    refine ⟨p, hp, ?_⟩
    rw [List.getD_eq_getElem?_getD, List.getElem?_eq_getElem hp]
    exact hpv
  · intro ⟨p, hp, hpv⟩
    rw [← hpv]
    exact getD_mem_of_lt buf p hp

/-- Every non-zero key stored in a well-formed table is found by `find`. -/
theorem find_of_mem_buf (h : Nat → Nat) (t : HashTable) (W : TableWF h t) (v : Nat)
    (hv : v ≠ 0) (hm : v ∈ t.buf) : t.find h v = some v := by
  obtain ⟨p, hp, hpv⟩ := (mem_iff_getD t.buf v hv).mp hm
  have hp2 : p < 2 ^ t.sizeDegree := by
    rw [← W.len]
    exact hp
  have hwc := W.wc p hp2 (by rw [hpv]; exact hv)
  unfold WCAt at hwc
  rw [hpv] at hwc
  simp only [HashTable.find]
  rw [if_neg hv, W.len, hwc, hpv, if_pos hv]

theorem find_zero_of_hasZero (h : Nat → Nat) (t : HashTable) (hz : t.hasZero = true) :
    t.find h 0 = some 0 := by
  simp [HashTable.find, hz]

/-- Facts about writing a fresh non-zero key into an empty cell. -/
theorem set_empty_facts (buf : List Nat) (q x : Nat) (hq : q < buf.length)
    (hq0 : buf.getD q 0 = 0) (hx : x ≠ 0) (hnm : x ∉ buf)
    (hnd : (buf.filter (fun c => decide (c ≠ 0))).Nodup) :
    occnz (buf.set q x) = occnz buf + 1 ∧
      ((buf.set q x).filter (fun c => decide (c ≠ 0))).Nodup ∧
      (∀ v, v ≠ 0 → (v ∈ buf.set q x ↔ v ∈ buf ∨ v = x)) := by
  have hTlen : (buf.take q).length = q := by
    rw [List.length_take]
    omega
  have hd := decomp_at hq
  rw [hq0] at hd
  have hset : buf.set q x = buf.take q ++ x :: buf.drop (q + 1) := by
    have hs2 := set_at_append (buf.take q) (buf.drop (q + 1)) 0 x
    rw [hTlen] at hs2
    rw [← hd] at hs2
    exact hs2
  have hnmT : x ∉ buf.take q := fun hc => hnm ((List.take_sublist _ _).mem hc)
  have hnmD : x ∉ buf.drop (q + 1) := fun hc => hnm ((List.drop_sublist _ _).mem hc)
  refine ⟨?_, ?_, ?_⟩
  · unfold occnz
    conv_rhs => rw [hd]
    rw [hset, List.countP_append, List.countP_append, List.countP_cons, List.countP_cons]
    simp [hx]
    omega
  · rw [hset, List.filter_append, List.filter_cons]
    rw [if_pos (by simpa using hx)]
    rw [List.nodup_middle]
    have hnd2 : ((buf.take q).filter (fun c => decide (c ≠ 0)) ++
        (buf.drop (q + 1)).filter (fun c => decide (c ≠ 0))).Nodup := by
      have : (buf.filter (fun c => decide (c ≠ 0))).Nodup := hnd
      rw [hd, List.filter_append, List.filter_cons] at this
      simpa using this
    refine List.nodup_cons.mpr ⟨?_, hnd2⟩
    intro hc
    rcases List.mem_append.mp hc with hc | hc
    · exact hnmT (List.mem_of_mem_filter hc)
    · exact hnmD (List.mem_of_mem_filter hc)
  · intro v hv
    rw [hset]
    conv_rhs => rw [hd]
    simp only [List.mem_append, List.mem_cons]
    constructor
    · intro hm
      rcases hm with hm | hm | hm
      · exact Or.inl (Or.inl hm)
      · exact Or.inr hm
      · exact Or.inl (Or.inr (Or.inr hm))
    · intro hm
      rcases hm with (hm | hm | hm) | hm
      · exact Or.inl hm
      · exact absurd hm hv
      · exact Or.inr (Or.inr hm)
      · exact Or.inr (Or.inl hm)

theorem two_mul_maxFill (d : Nat) (hd : 1 ≤ d) : 2 * growerMaxFill d = 2 ^ d := by
  obtain ⟨k, hk⟩ : ∃ k, d = k + 1 := ⟨d - 1, by omega⟩
  rw [hk]
  unfold growerMaxFill
  rw [Nat.add_sub_cancel, pow_succ]
  ring

theorem maxFill_lt_bufSize (d : Nat) (hd : 1 ≤ d) : growerMaxFill d < 2 ^ d := by
  have h1 := two_mul_maxFill d hd
  have h2 : 1 ≤ growerMaxFill d := Nat.pos_pow_of_pos _ (by norm_num)
  omega

theorem two_le_maxFill (d : Nat) (hd : 2 ≤ d) : 2 ≤ growerMaxFill d := by
  unfold growerMaxFill
  calc 2 = 2 ^ 1 := by norm_num
  _ ≤ 2 ^ (d - 1) := Nat.pow_le_pow_right (by norm_num) (by omega)

theorem deg_le_increase (d : Nat) : d + 1 ≤ growerIncreaseSize d := by
  unfold growerIncreaseSize
  split_ifs <;> omega

theorem maxFill_increase (d : Nat) (hd : 2 ≤ d) :
    growerMaxFill d + 1 ≤ growerMaxFill (growerIncreaseSize d) := by
  have h1 := two_mul_maxFill d (by omega)
  have h2 := two_le_maxFill d hd
  have h3 : 2 ^ d ≤ growerMaxFill (growerIncreaseSize d) := by
    unfold growerMaxFill
    refine Nat.pow_le_pow_right (by norm_num) ?_
    have := deg_le_increase d
    omega
  omega

/-- Writing a fresh key into an empty cell and immediately resizing (the
overflow branch of `emplaceNonZeroImpl`) yields a well-formed table whose
keys are those of the buffer after the write. -/
theorem resized_wf (h : Nat → Nat) (t : HashTable) (B : List Nat)
    (hdeg : 2 ≤ t.sizeDegree) (hlenB : B.length = 2 ^ t.sizeDegree)
    (hnodupB : (B.filter (fun c => decide (c ≠ 0))).Nodup)
    (hoccB : occnz B ≤ growerMaxFill t.sizeDegree + 1)
    (hwcB : ∀ p, p < 2 ^ t.sizeDegree → B.getD p 0 ≠ 0 → WCAt h t.sizeDegree B p)
    (hsize : t.m_size + 1 = occnz B + (if t.hasZero then 1 else 0)) :
    TableWF h (HashTable.resize h { t with buf := B, m_size := t.m_size + 1 }) ∧
      (∀ v, v ≠ 0 →
        (v ∈ (HashTable.resize h { t with buf := B, m_size := t.m_size + 1 }).buf ↔
          v ∈ B)) ∧
      (HashTable.resize h { t with buf := B, m_size := t.m_size + 1 }).m_size =
        t.m_size + 1 ∧
      (HashTable.resize h { t with buf := B, m_size := t.m_size + 1 }).hasZero =
        t.hasZero := by
  have hp1 : ({ t with buf := B, m_size := t.m_size + 1 } : HashTable).sizeDegree =
      t.sizeDegree := rfl
  have hp2 : ({ t with buf := B, m_size := t.m_size + 1 } : HashTable).buf = B := rfl
  have hp3 : ({ t with buf := B, m_size := t.m_size + 1 } : HashTable).m_size =
      t.m_size + 1 := rfl
  have hp4 : ({ t with buf := B, m_size := t.m_size + 1 } : HashTable).hasZero =
      t.hasZero := rfl
  obtain ⟨hrd, hrlen, hrnodup, hrocc, hrmem, hrwc, hrm, hrz⟩ :=
    resize_preserves h { t with buf := B, m_size := t.m_size + 1 } hdeg hlenB hnodupB hoccB
  refine ⟨⟨?_, hrlen, hrnodup, hrwc, ?_, ?_⟩, ?_, ?_, ?_⟩
  · rw [hrd, hp1]
    have := deg_le_increase t.sizeDegree
    omega
  · rw [hrm, hrz, hrocc, hp3, hp2, hp4]
    exact hsize
  · rw [hrocc, hrd, hp2, hp1]
    have := maxFill_increase t.sizeDegree hdeg
    omega
  · intro v hv
    rw [hrmem v hv, hp2]
  · rw [hrm, hp3]
  · rw [hrz, hp4]

/-- One `emplace` with a working allocator on a well-formed table: the call
succeeds, well-formedness is preserved, the stored key set gains `x`,
`m_size` grows exactly on fresh keys, `inserted` reports exactly freshness,
and the emplaced key is immediately findable. -/
theorem emplace_step (h : Nat → Nat) (t : HashTable) (x : Nat) (W : TableWF h t) :
    ∃ t2 b, HashTable.emplace h true t x = Except.ok (t2, b) ∧
      TableWF h t2 ∧
      (∀ v, v ≠ 0 → (v ∈ t2.buf ↔ v ∈ t.buf ∨ v = x)) ∧
      (t2.hasZero = true ↔ (t.hasZero = true ∨ x = 0)) ∧
      (t2.m_size = if (x = 0 ∧ t.hasZero = true) ∨ (x ≠ 0 ∧ x ∈ t.buf)
        then t.m_size else t.m_size + 1) ∧
      (b = true ↔ ¬ ((x = 0 ∧ t.hasZero = true) ∨ (x ≠ 0 ∧ x ∈ t.buf))) ∧
      HashTable.find h t2 x = some x := by
  by_cases hx : x = 0
  · subst hx
    by_cases hz : t.hasZero = true
    · refine ⟨t, false, ?_, W, ?_, ?_, ?_, ?_, find_zero_of_hasZero h t hz⟩
      · simp [HashTable.emplace, emplaceIfZero, hz]
      · intro v hv
        simp [hv]
      · simp [hz]
      · simp [hz]
      · simp [hz]
    · have hzf : t.hasZero = false := by simpa using hz
      refine ⟨{ t with hasZero := true, m_size := t.m_size + 1 }, true, ?_, ?_, ?_, ?_,
        ?_, ?_, find_zero_of_hasZero h _ rfl⟩
      · simp [HashTable.emplace, emplaceIfZero, hzf]
      · refine ⟨W.deg, W.len, W.nodup, W.wc, ?_, W.occ_le⟩
        have hs := W.size_eq
        rw [hzf] at hs
        simp at hs
        simp [hs]
      · intro v hv
        simp [hv]
      · simp
      · simp [hzf]
      · simp [hzf]
  · have hplace : HashTable.emplace h true t x = emplaceNonZeroImpl h true t
        (findCell t.buf t.sizeDegree x t.buf.length (growerPlace t.sizeDegree (h x))) x := by
      simp [HashTable.emplace, emplaceIfZero, hx, emplaceNonZero]
    rw [W.len] at hplace
    have hsd : growerPlace t.sizeDegree (h x) < 2 ^ t.sizeDegree := home_lt _ _
    have hqd : findCell t.buf t.sizeDegree x (2 ^ t.sizeDegree)
        (growerPlace t.sizeDegree (h x)) < 2 ^ t.sizeDegree := findCell_lt _ _ hsd
    have hqlen : findCell t.buf t.sizeDegree x (2 ^ t.sizeDegree)
        (growerPlace t.sizeDegree (h x)) < t.buf.length := by
      rw [W.len]
      exact hqd
    have hmfN : growerMaxFill t.sizeDegree < 2 ^ t.sizeDegree :=
      maxFill_lt_bufSize _ (by have := W.deg; omega)
    have hocclt : occnz t.buf < t.buf.length := by
      rw [W.len]
      have := W.occ_le
      omega
    obtain ⟨e0, he0len, he0z⟩ := exists_zero_of_occ_lt t.buf hocclt
    have he0d : e0 < 2 ^ t.sizeDegree := by
      rw [← W.len]
      exact he0len
    obtain ⟨hstopq, _, _⟩ := findCell_char t.buf t.sizeDegree x
      (growerPlace t.sizeDegree (h x)) e0 hsd he0d (Or.inl he0z)
    by_cases hval : t.buf.getD (findCell t.buf t.sizeDegree x (2 ^ t.sizeDegree)
        (growerPlace t.sizeDegree (h x))) 0 ≠ 0
    · have hqx : t.buf.getD (findCell t.buf t.sizeDegree x (2 ^ t.sizeDegree)
          (growerPlace t.sizeDegree (h x))) 0 = x := hstopq.resolve_left hval
      have hmem : x ∈ t.buf := (mem_iff_getD t.buf x hx).mpr ⟨_, hqlen, hqx⟩
      refine ⟨t, false, ?_, W, ?_, ?_, ?_, ?_, find_of_mem_buf h t W x hx hmem⟩
      · rw [hplace]
        simp only [emplaceNonZeroImpl]
        rw [if_pos hval]
      · intro v hv
        constructor
        · exact fun hm => Or.inl hm
        · intro hm
          rcases hm with hm | hm
          · exact hm
          · exact hm ▸ hmem
      · simp [hx]
      · simp [hx, hmem]
      · simp [hx, hmem]
    · push_neg at hval
      have hnm : x ∉ t.buf := by
        intro hm
        obtain ⟨p, hp, hpv⟩ := (mem_iff_getD t.buf x hx).mp hm
        have hp2 : p < 2 ^ t.sizeDegree := by
          rw [← W.len]
          exact hp
        have hwc := W.wc p hp2 (by rw [hpv]; exact hx)
        unfold WCAt at hwc
        rw [hpv] at hwc
        rw [hwc, hpv] at hval
        exact hx hval
      obtain ⟨hocc1, hnodup1, hmem1⟩ := set_empty_facts t.buf
        (findCell t.buf t.sizeDegree x (2 ^ t.sizeDegree) (growerPlace t.sizeDegree (h x)))
        x hqlen hval hx hnm W.nodup
      have hwc1 : ∀ p, p < 2 ^ t.sizeDegree →
          (t.buf.set (findCell t.buf t.sizeDegree x (2 ^ t.sizeDegree)
            (growerPlace t.sizeDegree (h x))) x).getD p 0 ≠ 0 →
          WCAt h t.sizeDegree
            (t.buf.set (findCell t.buf t.sizeDegree x (2 ^ t.sizeDegree)
              (growerPlace t.sizeDegree (h x))) x) p := by
        intro p hp hpz
        by_cases hpq : p = findCell t.buf t.sizeDegree x (2 ^ t.sizeDegree)
            (growerPlace t.sizeDegree (h x))
        · subst hpq
          exact wc_set_self h t.sizeDegree t.buf x W.len hx hval
        · have hold : t.buf.getD p 0 ≠ 0 := by
            rw [getD_set_ne t.buf _ p x hpq] at hpz
            exact hpz
          exact wc_preserved_set h t.sizeDegree t.buf _ x p hval hp hpq hold
            (W.wc p hp hold)
      have hlen1 : (t.buf.set (findCell t.buf t.sizeDegree x (2 ^ t.sizeDegree)
          (growerPlace t.sizeDegree (h x))) x).length = 2 ^ t.sizeDegree := by
        rw [List.length_set]
        exact W.len
      have hmemx : x ∈ t.buf.set (findCell t.buf t.sizeDegree x (2 ^ t.sizeDegree)
          (growerPlace t.sizeDegree (h x))) x :=
        (hmem1 x hx).mpr (Or.inr rfl)
      by_cases hov : growerOverflow t.sizeDegree (t.m_size + 1) = true
      · -- the insert triggers a resize
        obtain ⟨hWr, hmemr, hmr, hzr⟩ := resized_wf h t
          (t.buf.set (findCell t.buf t.sizeDegree x (2 ^ t.sizeDegree)
            (growerPlace t.sizeDegree (h x))) x) W.deg hlen1 hnodup1
          (by rw [hocc1]; have := W.occ_le; omega) hwc1
          (by rw [hocc1]; have := W.size_eq; omega)
        refine ⟨_, true, ?_, hWr, ?_, ?_, ?_, ?_, ?_⟩
        · rw [hplace]
          simp only [emplaceNonZeroImpl]
          rw [if_neg (fun hc => hc hval)]
          rw [if_pos hov]
          simp
        · intro v hv
          rw [hmemr v hv]
          exact hmem1 v hv
        · rw [hzr]
          simp [hx]
        · rw [hmr]
          simp [hx, hnm]
        · simp [hx, hnm]
        · exact find_of_mem_buf h _ hWr x hx ((hmemr x hx).mpr hmemx)
      · -- no resize needed
        have hle : t.m_size + 1 ≤ growerMaxFill t.sizeDegree := by
          simp [growerOverflow] at hov
          omega
        have hW2 : TableWF h { t with buf := t.buf.set (findCell t.buf t.sizeDegree x
            (2 ^ t.sizeDegree) (growerPlace t.sizeDegree (h x))) x, m_size := t.m_size + 1 } := by
          refine ⟨W.deg, hlen1, hnodup1, hwc1, ?_, ?_⟩
          · show t.m_size + 1 = occnz (t.buf.set (findCell t.buf t.sizeDegree x
              (2 ^ t.sizeDegree) (growerPlace t.sizeDegree (h x))) x) +
              (if t.hasZero then 1 else 0)
            rw [hocc1]
            have := W.size_eq
            omega
          · show occnz (t.buf.set (findCell t.buf t.sizeDegree x
              (2 ^ t.sizeDegree) (growerPlace t.sizeDegree (h x))) x) ≤
              growerMaxFill t.sizeDegree
            rw [hocc1]
            have hs := W.size_eq
            have hz0 : (if t.hasZero = true then 1 else 0) = 0 ∨
                (if t.hasZero = true then 1 else 0) = 1 := by
              split_ifs <;> omega
            omega
        refine ⟨_, true, ?_, hW2, ?_, ?_, ?_, ?_, ?_⟩
        · rw [hplace]
          simp only [emplaceNonZeroImpl]
          rw [if_neg (fun hc => hc hval)]
          rw [if_neg (by simpa using hov)]
        · intro v hv
          exact hmem1 v hv
        · simp [hx]
        · simp [hx, hnm]
        · simp [hx, hnm]
        · exact find_of_mem_buf h _ hW2 x hx hmemx

theorem occnz_replicate (n : Nat) : occnz (List.replicate n 0) = 0 := by
  unfold occnz
  rw [List.countP_eq_length_filter, filter_replicate_zero]
  rfl

theorem length_filter_split (l : List Nat) (p : Nat → Bool) :
    l.length = (l.filter p).length + (l.filter (fun a => ! p a)).length := by
  induction l with
  | nil => rfl
  | cons a rest ih =>
    by_cases hpa : p a = true
    · simp only [List.filter_cons, hpa, if_pos, Bool.not_true, List.length_cons]
      simp only [if_neg (by simp : ¬ (false = true))]
      simp [ih]
      omega
    · have hpaf : p a = false := by simpa using hpa
      simp only [List.filter_cons, hpaf, Bool.not_false, List.length_cons]
      simp only [if_neg (by simp : ¬ (false = true)), if_pos rfl]
      simp [ih]
      omega

theorem filter_not_nz_dedup (ks : List Nat) :
    ((ks.dedup).filter (fun c => ! decide (c ≠ 0))).length = if 0 ∈ ks then 1 else 0 := by
  have hsub : ∀ v ∈ (ks.dedup).filter (fun c => ! decide (c ≠ 0)), v = 0 := by
    intro v hv
    have := List.of_mem_filter hv
    simpa using this
  by_cases hz : 0 ∈ ks
  · have hmem : (0 : Nat) ∈ (ks.dedup).filter (fun c => ! decide (c ≠ 0)) :=
      List.mem_filter.mpr ⟨List.mem_dedup.mpr hz, by simp⟩
    have hnd : ((ks.dedup).filter (fun c => ! decide (c ≠ 0))).Nodup :=
      (List.nodup_dedup ks).filter _
    rw [if_pos hz]
    rcases hfil : (ks.dedup).filter (fun c => ! decide (c ≠ 0)) with _ | ⟨a, rest⟩
    · rw [hfil] at hmem
      simp at hmem
    · rw [hfil] at hsub hnd
      have ha : a = 0 := hsub a (by simp)
      rcases rest with _ | ⟨b, rest2⟩
      · simp
      · have hb : b = 0 := hsub b (by simp)
        rw [ha, hb] at hnd
        simp at hnd
  · rw [if_neg hz]
    rcases hfil : (ks.dedup).filter (fun c => ! decide (c ≠ 0)) with _ | ⟨a, rest⟩
    · rfl
    · exfalso
      have ha : a = 0 := by
        have := hsub a
        rw [hfil] at this
        exact this (by simp)
      have hadedup : a ∈ ks.dedup := by
        have : a ∈ (ks.dedup).filter (fun c => ! decide (c ≠ 0)) := by
          rw [hfil]
          simp
        exact List.mem_of_mem_filter this
      exact hz (List.mem_dedup.mp (ha ▸ hadedup))

/-- Occupied-cell count plus the zero slot against the number of distinct
emplaced keys. -/
theorem dedup_count (buf : List Nat) (ks : List Nat)
    (hnd : (buf.filter (fun c => decide (c ≠ 0))).Nodup)
    (hm : ∀ v, v ≠ 0 → (v ∈ buf ↔ v ∈ ks)) (hz : Bool)
    (hziff : hz = true ↔ 0 ∈ ks) :
    occnz buf + (if hz then 1 else 0) = ks.dedup.length := by
  have h1 : occnz buf = (buf.filter (fun c => decide (c ≠ 0))).length := by
    unfold occnz
    rw [List.countP_eq_length_filter]
  have hperm : (buf.filter (fun c => decide (c ≠ 0))).Perm
      ((ks.dedup).filter (fun c => decide (c ≠ 0))) := by
    refine (List.perm_ext_iff_of_nodup hnd ((List.nodup_dedup ks).filter _)).mpr ?_
    intro v
    rw [List.mem_filter, List.mem_filter, List.mem_dedup]
    constructor
    · intro ⟨hvb, hvp⟩
      have hv : v ≠ 0 := by simpa using hvp
      exact ⟨(hm v hv).mp hvb, hvp⟩
    · intro ⟨hvk, hvp⟩
      have hv : v ≠ 0 := by simpa using hvp
      exact ⟨(hm v hv).mpr hvk, hvp⟩
  have hlen := hperm.length_eq
  have hsplit := length_filter_split (ks.dedup) (fun c => decide (c ≠ 0))
  have hzero := filter_not_nz_dedup ks
  by_cases hzk : 0 ∈ ks
  · rw [if_pos hzk] at hzero
    have hzt : hz = true := hziff.mpr hzk
    rw [hzt, if_pos rfl, h1, hlen]
    omega
  · rw [if_neg hzk] at hzero
    have hzf : hz = false := by
      rcases Bool.eq_false_or_eq_true hz with hb | hb
      · exact absurd (hziff.mp hb) hzk
      · exact hb
    rw [hzf, h1, hlen, if_neg (by simp)]
    omega

/-- A whole `emplace` sequence from a well-formed start table: the result
is well-formed and stores exactly the start keys plus the emplaced keys. -/
theorem emplaceRun_aux (h : Nat → Nat) :
    ∀ (ks : List Nat) (t : HashTable), TableWF h t →
      TableWF h (ks.foldl (fun t2 k =>
        match HashTable.emplace h true t2 k with
        | Except.ok r => r.1
        | Except.error t3 => t3) t) ∧
      (∀ v, v ≠ 0 → (v ∈ (ks.foldl (fun t2 k =>
        match HashTable.emplace h true t2 k with
        | Except.ok r => r.1
        | Except.error t3 => t3) t).buf ↔ v ∈ t.buf ∨ v ∈ ks)) ∧
      ((ks.foldl (fun t2 k =>
        match HashTable.emplace h true t2 k with
        | Except.ok r => r.1
        | Except.error t3 => t3) t).hasZero = true ↔
        (t.hasZero = true ∨ 0 ∈ ks)) := by
  intro ks
  induction ks with
  | nil =>
    intro t W
    refine ⟨W, ?_, ?_⟩
    · intro v hv
      simp
    · simp
  | cons k rest ih =>
    intro t W
    obtain ⟨t2, b, heq, W2, hmem2, hz2, _, _, _⟩ := emplace_step h t k W
    have hstep : (match HashTable.emplace h true t k with
        | Except.ok r => r.1
        | Except.error t3 => t3) = t2 := by
      simp only [heq]
    have hfold : (k :: rest).foldl (fun t2 k =>
        match HashTable.emplace h true t2 k with
        | Except.ok r => r.1
        | Except.error t3 => t3) t = rest.foldl (fun t2 k =>
        match HashTable.emplace h true t2 k with
        | Except.ok r => r.1
        | Except.error t3 => t3) t2 := by
      rw [List.foldl_cons, hstep]
    rw [hfold]
    obtain ⟨Wf, hmemf, hzf⟩ := ih t2 W2
    refine ⟨Wf, ?_, ?_⟩
    · intro v hv
      rw [hmemf v hv, hmem2 v hv, List.mem_cons]
      constructor
      · intro hc
        rcases hc with (hc | hc) | hc
        · exact Or.inl hc
        · exact Or.inr (Or.inl hc)
        · exact Or.inr (Or.inr hc)
      · intro hc
        rcases hc with hc | hc | hc
        · exact Or.inl (Or.inl hc)
        · exact Or.inl (Or.inr hc)
        · exact Or.inr hc
    · rw [hzf, hz2, List.mem_cons]
      constructor
      · intro hc
        rcases hc with (hc | hc) | hc
        · exact Or.inl hc
        · exact Or.inr (Or.inl hc.symm)
        · exact Or.inr (Or.inr hc)
      · intro hc
        rcases hc with hc | hc | hc
        · exact Or.inl (Or.inl hc)
        · exact Or.inl (Or.inr hc.symm)
        · exact Or.inr hc

/-- Every table reached by `emplaceRun` is well-formed and stores exactly
the emplaced keys. -/
theorem emplaceRun_inv (h : Nat → Nat) (d0 : Nat) (hd : 2 ≤ d0) (ks : List Nat) :
    TableWF h (emplaceRun h d0 ks) ∧
      (∀ v, v ≠ 0 → (v ∈ (emplaceRun h d0 ks).buf ↔ v ∈ ks)) ∧
      ((emplaceRun h d0 ks).hasZero = true ↔ 0 ∈ ks) := by
  have hinit : TableWF h (hashTableInit d0) := by
    refine ⟨hd, by simp [hashTableInit], ?_, ?_, ?_, ?_⟩
    · show ((List.replicate (2 ^ d0) 0).filter (fun c => decide (c ≠ 0))).Nodup
      rw [filter_replicate_zero]
      exact List.nodup_nil
    · intro p hp hpz
      rw [show (hashTableInit d0).buf = List.replicate (2 ^ d0) 0 from rfl,
        getD_replicate_zero] at hpz
      exact absurd rfl hpz
    · show (0 : Nat) = occnz (List.replicate (2 ^ d0) 0) + (if false then 1 else 0)
      rw [occnz_replicate]
      rfl
    · show occnz (List.replicate (2 ^ d0) 0) ≤ growerMaxFill d0
      rw [occnz_replicate]
      exact Nat.zero_le _
  obtain ⟨Wf, hmemf, hzf⟩ := emplaceRun_aux h ks (hashTableInit d0) hinit
  refine ⟨Wf, ?_, ?_⟩
  · intro v hv
    have h1 := hmemf v hv
    constructor
    · intro hm
      rcases h1.mp hm with hc | hc
      · exact absurd (List.eq_of_mem_replicate hc) hv
      · exact hc
    · intro hm
      exact h1.mpr (Or.inr hm)
  · constructor
    · intro hm
      rcases hzf.mp hm with hc | hc
      · simp [hashTableInit] at hc
      · exact hc
    · intro hm
      exact hzf.mpr (Or.inr hm)

/-- An explicit `resize` of a well-formed table keeps it well-formed with
the same keys and zero flag. -/
theorem resize_wf_of_wf (h : Nat → Nat) (t : HashTable) (W : TableWF h t) :
    TableWF h (t.resize h) ∧ (∀ v, v ≠ 0 → (v ∈ (t.resize h).buf ↔ v ∈ t.buf)) ∧
      (t.resize h).hasZero = t.hasZero := by
  obtain ⟨hrd, hrlen, hrnodup, hrocc, hrmem, hrwc, hrm, hrz⟩ :=
    resize_preserves h t W.deg W.len W.nodup (by have := W.occ_le; omega)
  refine ⟨⟨?_, hrlen, hrnodup, hrwc, ?_, ?_⟩, hrmem, hrz⟩
  · rw [hrd]
    have h1 := deg_le_increase t.sizeDegree
    have h2 := W.deg
    omega
  · rw [hrm, hrz, hrocc]
    exact W.size_eq
  · rw [hrocc, hrd]
    have h1 := W.occ_le
    have h2 := maxFill_increase t.sizeDegree W.deg
    omega

/-- C1 (amended): for every sequence of `emplace` calls on a hash table
with initial grower degree at least 2 and a working allocator, `size()`
equals the number of distinct keys emplaced so far (the zero key counted
via the out-of-band zero slot); every emplaced key is findable afterwards;
immediately after an `emplace(k)` that reports `inserted = true`, `find(k)`
returns a cell holding `k`; an explicit `resize` leaves `size()` unchanged
and every previously emplaced key still findable; and the number of
occupied bucket cells — `size()` minus one when the zero slot is taken —
never exceeds `maxFill()`, i.e. half the bucket count.  (The spec's
stronger form — `size()` itself at most `maxFill()` — fails, because
`emplaceIfZero` increments `m_size` without an overflow check; see the
counterexample.) -/
theorem hash_table_invariants (h : Nat → Nat) (d0 : Nat) (hd : 2 ≤ d0) (ks : List Nat) :
    (emplaceRun h d0 ks).size = ks.dedup.length ∧
      (∀ k, k ∈ ks → HashTable.find h (emplaceRun h d0 ks) k = some k) ∧
      (∀ pre k t2, HashTable.emplace h true (emplaceRun h d0 pre) k =
        Except.ok (t2, true) → HashTable.find h t2 k = some k) ∧
      ((emplaceRun h d0 ks).resize h).m_size = (emplaceRun h d0 ks).m_size ∧
      (∀ k, k ∈ ks → HashTable.find h ((emplaceRun h d0 ks).resize h) k = some k) ∧
      (emplaceRun h d0 ks).m_size - (if (emplaceRun h d0 ks).hasZero then 1 else 0) ≤
        growerMaxFill (emplaceRun h d0 ks).sizeDegree := by
  obtain ⟨W, hmem, hziff⟩ := emplaceRun_inv h d0 hd ks
  obtain ⟨Wr, hmemr, hzr⟩ := resize_wf_of_wf h (emplaceRun h d0 ks) W
  refine ⟨?_, ?_, ?_, rfl, ?_, ?_⟩
  · show (emplaceRun h d0 ks).m_size = ks.dedup.length
    rw [W.size_eq]
    exact dedup_count _ ks W.nodup hmem _ hziff
  · intro k hk
    by_cases hk0 : k = 0
    · subst hk0
      exact find_zero_of_hasZero h _ (hziff.mpr hk)
    · exact find_of_mem_buf h _ W k hk0 ((hmem k hk0).mpr hk)
  · intro pre k t2 hemp
    obtain ⟨Wp, hmemp, hzp⟩ := emplaceRun_inv h d0 hd pre
    obtain ⟨t2x, bx, heqx, _, _, _, _, _, hfindx⟩ :=
      emplace_step h (emplaceRun h d0 pre) k Wp
    rw [heqx] at hemp
    have hpair := Except.ok.inj hemp
    have ht2 : t2x = t2 := congrArg Prod.fst hpair
    rw [← ht2]
    exact hfindx
  · intro k hk
    by_cases hk0 : k = 0
    · subst hk0
      refine find_zero_of_hasZero h _ ?_
      rw [hzr]
      exact hziff.mpr hk
    · exact find_of_mem_buf h _ Wr k hk0 ((hmemr k hk0).mpr ((hmem k hk0).mpr hk))
  · have h1 := W.size_eq
    have h2 := W.occ_le
    rcases Bool.eq_false_or_eq_true (emplaceRun h d0 ks).hasZero with hb | hb
    · rw [hb] at h1 ⊢
      simp at h1 ⊢
      omega
    · rw [hb] at h1 ⊢
      simp at h1 ⊢
      omega

/-- C1, counterexample to the load-factor clause: with grower degree 2
(4 buckets, `maxFill() = 2`), after `emplace(1)` and `emplace(2)` the
zero-key `emplace(0)` succeeds with `inserted = true` through
`emplaceIfZero`, which has no overflow check, leaving `size() = 3 >
maxFill() = 2` with the degree unchanged — refuting "after every
successful insertion the element count is at most maxFill()". -/
theorem hash_table_size_exceeds_maxfill :
    HashTable.emplace (fun x => x) true (emplaceRun (fun x => x) 2 [1, 2]) 0 =
      Except.ok ({ sizeDegree := 2, buf := [0, 1, 2, 0], hasZero := true, m_size := 3 }, true) ∧
      (emplaceRun (fun x => x) 2 [1, 2, 0]).size = 3 ∧
      (emplaceRun (fun x => x) 2 [1, 2, 0]).sizeDegree = 2 ∧
      growerMaxFill 2 = 2 :=
  ⟨rfl, rfl, rfl, rfl⟩

/-- C1 witness: the amended invariants at degree 2 for the emplace sequence
`[1, 2, 0]`. -/
theorem hash_table_invariants_witness :
    2 ≤ 2 ∧
      ((emplaceRun (fun x => x) 2 [1, 2, 0]).size = [1, 2, 0].dedup.length ∧
        (∀ k, k ∈ [1, 2, 0] →
          HashTable.find (fun x => x) (emplaceRun (fun x => x) 2 [1, 2, 0]) k = some k) ∧
        (∀ pre k t2, HashTable.emplace (fun x => x) true
            (emplaceRun (fun x => x) 2 pre) k = Except.ok (t2, true) →
          HashTable.find (fun x => x) t2 k = some k) ∧
        ((emplaceRun (fun x => x) 2 [1, 2, 0]).resize (fun x => x)).m_size =
          (emplaceRun (fun x => x) 2 [1, 2, 0]).m_size ∧
        (∀ k, k ∈ [1, 2, 0] → HashTable.find (fun x => x)
          ((emplaceRun (fun x => x) 2 [1, 2, 0]).resize (fun x => x)) k = some k) ∧
        (emplaceRun (fun x => x) 2 [1, 2, 0]).m_size -
            (if (emplaceRun (fun x => x) 2 [1, 2, 0]).hasZero then 1 else 0) ≤
          growerMaxFill (emplaceRun (fun x => x) 2 [1, 2, 0]).sizeDegree) :=
  ⟨by decide, hash_table_invariants (fun x => x) 2 (by decide) [1, 2, 0]⟩

end VecCore